import Mathlib

/-!
# Verification of the schem codec core

A shallow embedding of the `oriumgames/schem` Minecraft-schematic codec
library, together with proofs about the embedded operations.

Conventions used throughout:

* Go `int64` values that are only ever treated as 64-bit patterns (the packed
  long arrays) are modelled as `Nat` values `< 2 ^ 64`; a shift of an `int64`
  truncates to the low 64 bits, which is written as an explicit `% 2 ^ 64`.
  Go's arithmetic right shift on a (possibly negative) `int64` agrees with the
  logical `Nat` shift on every bit position that survives the masks applied by
  the code (all masked bit ranges end at or below bit 63), so `>>>` on `Nat`
  is a faithful model of every masked read performed by the packers.
* Go maps are modelled as association lists; map writes remove the old binding
  and append the new one, map reads search the list.
* The gzip and NBT byte serializations are external primitives for the
  library (big-endian typed-tree contract); a writer followed by a reader is
  modelled by feeding the writer's NBT tree directly to the reader.
* IEEE-754 entity fields are carried as raw bit patterns and never
  interpreted arithmetically; no verified claim inspects them.
-/

namespace Schem

/-! ## Bit and byte primitives (format/internal/base/packing.go, varint.go) -/

/-- One iteration of the `PackLongArray` loop: write `val` into the long that
holds slot `i`, without crossing a long boundary. -/
def packStep (bitsPerEntry : Nat) (longs : List Nat) (i val : Nat) : List Nat :=
  let valuesPerLong := 64 / bitsPerEntry
  let longIdx := i / valuesPerLong
  let bitIdx := (i % valuesPerLong) * bitsPerEntry
  longs.set longIdx ((longs.getD longIdx 0) ||| ((val <<< bitIdx) % 2 ^ 64))

/-- The `for i, val := range values` loop of `PackLongArray`. -/
def packGo (bitsPerEntry : Nat) (values : List Nat) (i : Nat) (longs : List Nat) : List Nat :=
  match values with
  | [] => longs
  | v :: vs => packGo bitsPerEntry vs (i + 1) (packStep bitsPerEntry longs i v)

/-- `PackLongArray` packs values into a long array using standard Minecraft
packing: values do not cross long boundaries. -/
def PackLongArray (values : List Nat) (bitsPerEntry : Nat) : List Nat :=
  if bitsPerEntry = 0 then []
  else
    let valuesPerLong := 64 / bitsPerEntry
    let longCount := (values.length + valuesPerLong - 1) / valuesPerLong
    packGo bitsPerEntry values 0 (List.replicate longCount 0)

/-- `UnpackLongArray` unpacks values from a long array using standard
Minecraft packing.  The Go loop writes into a zero-initialised array and
skips slots whose long index is out of range, which is the `if` below. -/
def UnpackLongArray (longs : List Nat) (bitsPerEntry count : Nat) : List Nat :=
  if bitsPerEntry = 0 ∨ longs = [] then List.replicate count 0
  else
    let valuesPerLong := 64 / bitsPerEntry
    let mask := (1 <<< bitsPerEntry) - 1
    (List.range count).map fun i =>
      let longIdx := i / valuesPerLong
      let bitIdx := (i % valuesPerLong) * bitsPerEntry
      if longIdx < longs.length then (longs.getD longIdx 0 >>> bitIdx) &&& mask else 0

/-- One write of the tight packer: put `val` at absolute bit position
`bitPos`, splitting across two longs when it does not fit. -/
def writeTight (longs : List Nat) (bitPos bitsPerEntry val : Nat) : List Nat :=
  let longIdx := bitPos / 64
  let bitOffset := bitPos % 64
  let bitsInFirstLong := 64 - bitOffset
  if bitsPerEntry ≤ bitsInFirstLong then
    longs.set longIdx ((longs.getD longIdx 0) ||| ((val <<< bitOffset) % 2 ^ 64))
  else
    let mask1 := (1 <<< bitsInFirstLong) - 1
    let l1 := longs.set longIdx
      ((longs.getD longIdx 0) ||| (((val &&& mask1) <<< bitOffset) % 2 ^ 64))
    if longIdx + 1 < longs.length then
      let bitsInSecondLong := bitsPerEntry - bitsInFirstLong
      l1.set (longIdx + 1)
        ((l1.getD (longIdx + 1) 0) ||| ((val >>> bitsInFirstLong) &&& ((1 <<< bitsInSecondLong) - 1)))
    else l1

/-- The value loop of `PackLongArrayTight`, carrying the running bit cursor. -/
def packTightGo (bitsPerEntry : Nat) (values : List Nat) (bitPos : Nat)
    (longs : List Nat) : List Nat :=
  match values with
  | [] => longs
  | v :: vs => packTightGo bitsPerEntry vs (bitPos + bitsPerEntry) (writeTight longs bitPos bitsPerEntry v)

/-- `PackLongArrayTight` packs values using Litematica's tight packing:
values may cross long boundaries. -/
def PackLongArrayTight (values : List Nat) (bitsPerEntry : Nat) : List Nat :=
  if bitsPerEntry = 0 then []
  else
    let totalBits := values.length * bitsPerEntry
    let longCount := (totalBits + 63) / 64
    packTightGo bitsPerEntry values 0 (List.replicate longCount 0)

/-- `UnpackLongArrayTight` unpacks values using Litematica's tight packing.
The Go loop breaks once the long index runs past the array; since the bit
cursor is monotone this is the same as the per-slot guard used here. -/
def UnpackLongArrayTight (longs : List Nat) (bitsPerEntry count : Nat) : List Nat :=
  if bitsPerEntry = 0 ∨ longs = [] then List.replicate count 0
  else
    let mask := (1 <<< bitsPerEntry) - 1
    (List.range count).map fun i =>
      let bitPos := i * bitsPerEntry
      let longIdx := bitPos / 64
      if longs.length ≤ longIdx then 0
      else
        let bitOffset := bitPos % 64
        let bitsInFirstLong := 64 - bitOffset
        if bitsPerEntry ≤ bitsInFirstLong then
          (longs.getD longIdx 0 >>> bitOffset) &&& mask
        else
          let mask1 := (1 <<< bitsInFirstLong) - 1
          let v1 := (longs.getD longIdx 0 >>> bitOffset) &&& mask1
          if longIdx + 1 < longs.length then
            let bitsInSecondLong := bitsPerEntry - bitsInFirstLong
            let mask2 := (1 <<< bitsInSecondLong) - 1
            v1 ||| (((longs.getD (longIdx + 1) 0) &&& mask2) <<< bitsInFirstLong)
          else v1

/-- Value of a little-endian digit list in base `B` (digit 0 first).  Used to
state what the two packers compute: a block-aligned long is the base-`2^b`
value of its slice of the input, and the tight packing is the base-`2^64`
digit list of the base-`2^b` value of the whole input. -/
def ofBase (B : Nat) : List Nat → Nat
  | [] => 0
  | d :: ds => d + B * ofBase B ds

/-- `EncodeVarInt` encodes one integer little-endian base-128 with a
continuation bit (varint.go). -/
def EncodeVarInt (value : Nat) : List Nat :=
  if h : value >>> 7 = 0 then [value &&& 127]
  else ((value &&& 127) ||| 128) :: EncodeVarInt (value >>> 7)
termination_by value
decreasing_by
  rw [Nat.shiftRight_eq_div_pow] at h ⊢
  exact Nat.div_lt_self (by omega) (by omega)

/-- `EncodeVarIntArray` concatenates the VarInt encodings. -/
def EncodeVarIntArray (values : List Nat) : List Nat :=
  values.foldl (fun buf v => buf ++ EncodeVarInt v) []

/-- The loop of `DecodeVarInt` (varint.go), carrying the accumulated value
and the number of bytes consumed. -/
def decodeVarIntGo (data : List Nat) (value length : Nat) : Option (Nat × Nat) :=
  if h : data.length ≤ length then none
  else
    let b := data.getD length 0
    let value' := value ||| ((b &&& 127) <<< (length * 7))
    if length + 1 > 5 then none
    else if b &&& 128 = 0 then some (value', length + 1)
    else decodeVarIntGo data value' (length + 1)
termination_by data.length - length

/-- `DecodeVarInt` reads a single VarInt; `none` models the two error
returns (input exhausted, or more than 5 bytes consumed). -/
def DecodeVarInt (data : List Nat) : Option (Nat × Nat) :=
  decodeVarIntGo data 0 0

/-- The loop of `DecodeVarIntArray`. -/
def decodeVarIntArrayGo (data : List Nat) (count offset : Nat) : Option (List Nat) :=
  match count with
  | 0 => some []
  | c + 1 =>
    match DecodeVarInt (data.drop offset) with
    | none => none
    | some (v, len) =>
      match decodeVarIntArrayGo data c (offset + len) with
      | none => none
      | some vs => some (v :: vs)

/-- `DecodeVarIntArray` decodes `count` consecutive VarInts. -/
def DecodeVarIntArray (data : List Nat) (count : Nat) : Option (List Nat) :=
  decodeVarIntArrayGo data count 0

/-! ## Uniform data model (format/internal/base/types.go, schematic.go) -/

/-- A block-state property value: Go `any` restricted to the scalar types the
parser produces (string, 32-bit int, bool). -/
inductive PropVal where
  | str (s : String)
  | int (v : Int)
  | bool (b : Bool)
deriving DecidableEq, Repr

/-- A block state: namespaced name plus property mapping (Go map modelled as
an association list). -/
structure BlockState where
  name : String
  properties : List (String × PropVal)
deriving DecidableEq, Repr

/-- Go map insert: replace any old binding, append the new one. -/
def putStr (m : List (String × α)) (k : String) (v : α) : List (String × α) :=
  m.filter (fun p => !(p.1 == k)) ++ [(k, v)]

/-- Go map read. -/
def getStr (m : List (String × α)) (k : String) : Option α :=
  (m.find? (fun p => p.1 == k)).map Prod.snd

/-- Go map insert for int keys. -/
def putInt (m : List (Int × α)) (k : Int) (v : α) : List (Int × α) :=
  m.filter (fun p => !(p.1 == k)) ++ [(k, v)]

/-- Go map read for int keys. -/
def getInt (m : List (Int × α)) (k : Int) : Option α :=
  (m.find? (fun p => p.1 == k)).map Prod.snd

/-- Go map delete for int keys. -/
def delInt (m : List (Int × α)) (k : Int) : List (Int × α) :=
  m.filter (fun p => !(p.1 == k))

/-- Property keys in lexicographic order (`sort.Strings`). -/
def sortedKeys (props : List (String × PropVal)) : List String :=
  (props.map Prod.fst).mergeSort (fun a b => a ≤ b)

/-- `fmt.Sprintf("%v", value)` on the scalar property types. -/
def PropVal.render : PropVal → String
  | .str s => s
  | .int v => toString v
  | .bool b => if b then "true" else "false"

/-- `BlockState.String` (types.go): canonical `name[k1=v1,...]` form with
keys sorted; the empty property map renders as the bare name. -/
def BlockState.String (b : BlockState) : String :=
  if b.properties.length = 0 then b.name
  else
    let keys := sortedKeys b.properties
    let parts := keys.map fun k =>
      k ++ "=" ++ ((getStr b.properties k).getD (.str "")).render
    b.name ++ "[" ++ String.intercalate "," parts ++ "]"

/-- `blockStateKey` (palette.go): the palette key; same canonical form, with
values rendered by a type switch. -/
def blockStateKey (block : BlockState) : String :=
  if block.properties.length = 0 then block.name
  else
    let keys := sortedKeys block.properties
    let parts := keys.map fun k =>
      k ++ "=" ++ (match getStr block.properties k with
        | some (.str v) => v
        | some (.int v) => toString v
        | some (.bool v) => if v then "true" else "false"
        | none => "")
    block.name ++ "[" ++ String.intercalate "," parts ++ "]"

/-- Go `int32(i)` conversion (wraps modulo `2^32`). -/
def toInt32 (i : Int) : Int :=
  (i + 2 ^ 31) % 2 ^ 32 - 2 ^ 31

/-- Go `int16(i)` conversion (wraps modulo `2^16`). -/
def toInt16 (i : Int) : Int :=
  (i + 2 ^ 15) % 2 ^ 16 - 2 ^ 15

/-- Value parsing rule of `ParseBlockState`: exactly true/false is a bool, a
decimal integer becomes a (wrapped) 32-bit int, anything else stays a
string. -/
def parsePropVal (value : String) : PropVal :=
  if value = "true" then .bool true
  else if value = "false" then .bool false
  else match value.toInt? with
    | some i => .int (toInt32 i)
    | none => .str value

/-- `strings.Cut(s, sep)`: the part before the first separator, the part
after it, and whether the separator occurred. -/
def stringCut (s sep : String) : String × String × Bool :=
  match s.splitOn sep with
  | [] => (s, "", false)
  | [n] => (n, "", false)
  | n :: rest => (n, String.intercalate sep rest, true)

/-- `ParseBlockState` (types.go): parse `name[k1=v1,...]` back into a block
state. -/
def ParseBlockState (s : String) : BlockState :=
  let (name, props, _) := stringCut s "["
  if props = "" then { name := name, properties := [] }
  else
    let props := if props.endsWith "]" then props.dropRight 1 else props
    let properties := (props.splitOn ",").foldl
      (fun acc part =>
        let (key, value, ok) := stringCut part "="
        if ok then putStr acc key (parsePropVal value) else acc)
      []
    { name := name, properties := properties }

/-- An NBT value tree (big-endian typed-tree contract of the external NBT
primitive).  Float payloads are carried as raw IEEE-754 bit patterns. -/
inductive NbtTag where
  | byteTag (v : Int)
  | shortTag (v : Int)
  | intTag (v : Int)
  | longTag (v : Int)
  | floatBits (bits : Nat)
  | doubleBits (bits : Nat)
  | stringTag (s : String)
  | byteArrTag (bs : List Nat)
  | intArrTag (vs : List Int)
  | longArrTag (vs : List Nat)
  | listTag (ts : List NbtTag)
  | compTag (fields : List (String × NbtTag))

/-- A block entity: id, schematic-local coordinates, and the remaining NBT
fields. -/
structure BlockEntity where
  ID : String
  X : Int
  Y : Int
  Z : Int
  Data : List (String × NbtTag)

/-- An entity.  Position, rotation and motion are IEEE-754 bit patterns
(three doubles, two floats, three doubles); no verified claim interprets
them numerically. -/
structure Entity where
  ID : String
  Pos : List Nat
  Rotation : List Nat
  Motion : List Nat
  UUID : Option (List Int)
  Data : List (String × NbtTag)

/-- `SchematicImpl` (schematic.go): sparse storage of a schematic. -/
structure SchematicImpl where
  width : Int
  height : Int
  length : Int
  offsetX : Int
  offsetY : Int
  offsetZ : Int
  blocks : List (Int × BlockState)
  blockEntities : List (Int × BlockEntity)
  biomes : List (Int × String)
  entities : List Entity
  metadata : List (String × NbtTag)
  formatID : String
  dataVersion : Int

/-- `New` (schematic.go): fresh schematic with the given dimensions. -/
def New (width height length : Int) (formatID : String) : SchematicImpl :=
  { width := width, height := height, length := length
    offsetX := 0, offsetY := 0, offsetZ := 0
    blocks := [], blockEntities := [], biomes := [], entities := []
    metadata := [], formatID := formatID, dataVersion := 0 }

/-- The Y-major linear index `x + z*width + y*width*length`. -/
def SchematicImpl.index (s : SchematicImpl) (x y z : Int) : Int :=
  x + z * s.width + y * s.width * s.length

/-- The bounds test shared by the accessors (`x < 0 || x >= s.width || ...`),
written positively. -/
def SchematicImpl.inRange (s : SchematicImpl) (x y z : Int) : Prop :=
  0 ≤ x ∧ x < s.width ∧ 0 ≤ y ∧ y < s.height ∧ 0 ≤ z ∧ z < s.length

instance (s : SchematicImpl) (x y z : Int) : Decidable (s.inRange x y z) := by
  unfold SchematicImpl.inRange
  infer_instance

/-- `Block`: `nil` out of bounds, otherwise the sparse map entry. -/
def SchematicImpl.Block (s : SchematicImpl) (x y z : Int) : Option BlockState :=
  if s.inRange x y z then getInt s.blocks (s.index x y z) else none

/-- `SetBlock`: out-of-range writes are ignored; `nil` deletes; any non-nil
state is stored as is. -/
def SchematicImpl.SetBlock (s : SchematicImpl) (x y z : Int)
    (block : Option BlockState) : SchematicImpl :=
  if s.inRange x y z then
    match block with
    | none => { s with blocks := delInt s.blocks (s.index x y z) }
    | some b => { s with blocks := putInt s.blocks (s.index x y z) b }
  else s

/-- `BlockEntity` accessor. -/
def SchematicImpl.BlockEntityAt (s : SchematicImpl) (x y z : Int) : Option BlockEntity :=
  if s.inRange x y z then getInt s.blockEntities (s.index x y z) else none

/-- `SetBlockEntity`: out-of-range writes are ignored; a stored entry first
has its `X, Y, Z` overwritten with the storage coordinates. -/
def SchematicImpl.SetBlockEntity (s : SchematicImpl) (x y z : Int)
    (be : Option BlockEntity) : SchematicImpl :=
  if s.inRange x y z then
    match be with
    | none => { s with blockEntities := delInt s.blockEntities (s.index x y z) }
    | some be =>
      { s with blockEntities :=
          putInt s.blockEntities (s.index x y z) { be with X := x, Y := y, Z := z } }
  else s

/-- `SetOffset`. -/
def SchematicImpl.SetOffset (s : SchematicImpl) (x y z : Int) : SchematicImpl :=
  { s with offsetX := x, offsetY := y, offsetZ := z }

/-- `SetDataVersion`. -/
def SchematicImpl.SetDataVersion (s : SchematicImpl) (v : Int) : SchematicImpl :=
  { s with dataVersion := v }

/-- `AddEntity` appends. -/
def SchematicImpl.AddEntity (s : SchematicImpl) (e : Entity) : SchematicImpl :=
  { s with entities := s.entities ++ [e] }

/-- `SetMetadata`. -/
def SchematicImpl.SetMetadata (s : SchematicImpl) (k : String) (v : NbtTag) : SchematicImpl :=
  { s with metadata := putStr s.metadata k v }

/-- `isAirBlock` (litematica codec): the universal air set. -/
def isAirBlock (name : String) : Bool :=
  match name with
  | "" | "minecraft:air" | "minecraft:void_air" | "minecraft:cave_air" => true
  | _ => false

/-- `isEmptyBlock` (axiom codec): the universal air set plus
`minecraft:structure_void`. -/
def isEmptyBlock (name : String) : Bool :=
  match name with
  | "" | "minecraft:air" | "minecraft:void_air" | "minecraft:cave_air"
  | "minecraft:structure_void" => true
  | _ => false

/-! ## Palette (format/internal/base/palette.go) -/

/-- Insertion-ordered palette.  The Go struct also keeps an index map keyed
by `blockStateKey`; the map lookup is modelled by scanning the
insertion-ordered list for the first key match. -/
structure Palette where
  blocks : List BlockState

/-- `NewPalette`. -/
def NewPalette : Palette := { blocks := [] }

/-- `NewPaletteWithAir`: air is pre-inserted at index 0. -/
def NewPaletteWithAir : Palette :=
  { blocks := [{ name := "minecraft:air", properties := [] }] }

/-- `Palette.Add`: return the existing index for an already-present canonical
key, else append. -/
def Palette.Add (p : Palette) (block : BlockState) : Palette × Nat :=
  match p.blocks.findIdx? (fun x => blockStateKey x == blockStateKey block) with
  | some i => (p, i)
  | none => ({ blocks := p.blocks ++ [block] }, p.blocks.length)

/-- `Palette.Size`. -/
def Palette.Size (p : Palette) : Nat := p.blocks.length

/-- `Palette.Get`. -/
def Palette.Get (p : Palette) (idx : Int) : Option BlockState :=
  if 0 ≤ idx ∧ idx < p.blocks.length then p.blocks[idx.toNat]? else none

/-- The value accumulated by the VarInt decode loop after consuming `n`
bytes: 7-bit groups ORed in at shift `7 * index`. -/
def varIntValue (data : List Nat) : Nat → Nat
  | 0 => 0
  | n + 1 => varIntValue data n ||| ((data.getD n 0 &&& 127) <<< (n * 7))

/-- The invariant of claim C7: every block entry sits at the linear index of
some in-range coordinate, and every block-entity entry stores its own
in-range coordinates consistently with its key. -/
def SchemWF (s : SchematicImpl) : Prop :=
  (∀ p ∈ s.blocks, ∃ x y z, s.inRange x y z ∧ p.1 = s.index x y z) ∧
  (∀ p ∈ s.blockEntities,
    s.inRange p.2.X p.2.Y p.2.Z ∧ p.1 = s.index p.2.X p.2.Y p.2.Z)

/-! ## Format detector (detect.go) -/

/-- `detectGzipFormat` after gzip decompression and NBT decoding: the
root-shape dispatch on the decoded root compound. -/
def detectGzipRoot (root : List (String × NbtTag)) : Except String String :=
  match getStr root "Version" with
  | some (.intTag v) =>
    if (getStr root "Regions").isSome then
      if v = 6 ∨ v = 7 then Except.ok "litematica"
      else Except.error "unsupported Litematica version"
    else if v = 1 then Except.ok "sponge_v1"
    else if v = 2 then Except.ok "sponge_v2"
    else if v = 3 then Except.ok "sponge_v3"
    else Except.error "unknown Sponge schematic version"
  | _ =>
    if (getStr root "Materials").isSome ∧ (getStr root "Blocks").isSome
        ∧ (getStr root "Data").isSome
    then Except.ok "mcedit"
    else Except.error "unknown gzip NBT format"

/-- The keys of the `formatReaders` registry (format.go). -/
def formatReaderKeys : List String :=
  ["axiom", "mcedit", "sponge_v1", "sponge_v2", "sponge_v3",
   "litematica_v6", "litematica_v7"]

/-! ## MCEdit codec cells (mcedit.go) -/

/-- The `"<id>:<meta>"` key into the legacy table. -/
def legacyKey (id meta : Nat) : String :=
  toString id ++ ":" ++ toString meta

/-- One cell of the MCEdit reader: primary key, then the `"<id>:0"`
fallback, else air (`none`).  The legacy table is a parameter: its contents
live in a table file outside the verified sources. -/
def mceditReadCell (legacy : List (String × String)) (id meta : Nat) : Option BlockState :=
  match getStr legacy (legacyKey id meta) with
  | some blockStr => some (ParseBlockState blockStr)
  | none =>
    match getStr legacy (legacyKey id 0) with
    | some baseStr => some (ParseBlockState baseStr)
    | none => none

/-- One cell of the MCEdit writer: the byte pair emitted for a cell, `(0, 0)`
for empty cells and for canonical strings missing from the reverse table
(the arrays are zero-initialised and a miss leaves them untouched). -/
def mceditWriteCell (reverse : List (String × (Nat × Nat)))
    (state : Option BlockState) : Nat × Nat :=
  match state with
  | none => (0, 0)
  | some st =>
    match getStr reverse st.String with
    | some mapped => mapped
    | none => (0, 0)

/-! ## Aliasing model for Entities() and Metadata() (schematic.go)

Go slices and maps are heap references.  To state the freshness of the
containers returned by `Entities()` and `Metadata()`, the heap is made
explicit: each allocation is a slot in a list, the schematic holds the
handle of its own slice/map, and returning a fresh copy allocates a new
slot holding the copied contents. -/

structure GoContainers where
  entHeap : List (List Entity)
  entHandle : Nat
  metaHeap : List (List (String × NbtTag))
  metaHandle : Nat

/-- Dereference an entity-slice handle. -/
def heapGetEnt (st : GoContainers) (h : Nat) : List Entity :=
  st.entHeap.getD h []

/-- Dereference a metadata-map handle. -/
def heapGetMeta (st : GoContainers) (h : Nat) : List (String × NbtTag) :=
  st.metaHeap.getD h []

/-- `Entities()`: allocate a fresh slice, copy the contents, return its
handle. -/
def entitiesOp (st : GoContainers) : GoContainers × Nat :=
  ({ st with entHeap := st.entHeap ++ [heapGetEnt st st.entHandle] },
   st.entHeap.length)

/-- `Metadata()`: allocate a fresh map, copy the contents, return its
handle. -/
def metadataOp (st : GoContainers) : GoContainers × Nat :=
  ({ st with metaHeap := st.metaHeap ++ [heapGetMeta st st.metaHandle] },
   st.metaHeap.length)

/-- `AddEntity`: append through the schematic's own slice handle. -/
def addEntityOp (st : GoContainers) (e : Entity) : GoContainers :=
  { st with entHeap := st.entHeap.set st.entHandle (heapGetEnt st st.entHandle ++ [e]) }

/-- `SetMetadata`: insert through the schematic's own map handle. -/
def setMetadataOp (st : GoContainers) (k : String) (v : NbtTag) : GoContainers :=
  { st with metaHeap :=
      st.metaHeap.set st.metaHandle (putStr (heapGetMeta st st.metaHandle) k v) }

/-- The caller mutating an entity slice it holds a handle to. -/
def writeEnt (st : GoContainers) (h : Nat) (l : List Entity) : GoContainers :=
  { st with entHeap := st.entHeap.set h l }

/-- The caller mutating a metadata map it holds a handle to. -/
def writeMeta (st : GoContainers) (h : Nat) (m : List (String × NbtTag)) : GoContainers :=
  { st with metaHeap := st.metaHeap.set h m }

/-- Well-formed heap: the schematic's own handles are allocated. -/
def ContainersWF (st : GoContainers) : Prop :=
  st.entHandle < st.entHeap.length ∧ st.metaHandle < st.metaHeap.length

/-! ## Axiom codec chunks (axiom.go) -/

/-- The bit-counting loop of `bitsPerBlock` (and Go `bits.Len`), with an
explicit fuel argument to keep the recursion structural; the loop halves its
argument each step, so fuel `n` always suffices. -/
def bitsLoopGo : Nat → Nat → Nat
  | _, 0 => 0
  | 0, _ => 0
  | fuel + 1, m => bitsLoopGo fuel (m / 2) + 1

/-- Shift right until zero, counting steps. -/
def bitsLoop (n : Nat) : Nat := bitsLoopGo n n

/-- `bitsPerBlock` (axiom.go): bit length of `paletteSize - 1`, clamped to a
minimum of 4; non-positive palette sizes give 0. -/
def bitsPerBlock (paletteSize : Nat) : Nat :=
  if paletteSize = 0 then 0
  else
    let bits := bitsLoop (paletteSize - 1)
    if bits < 4 then 4 else bits

/-- `chunkBuilder` (axiom.go): per-chunk palette and the 4096 cell values. -/
structure ChunkBuilder where
  entries : List BlockState
  data : List Nat

/-- `newChunkBuilder`: palette seeded with `minecraft:structure_void` at
index 0, all 4096 cells zero. -/
def newChunkBuilder : ChunkBuilder :=
  { entries := [{ name := "minecraft:structure_void", properties := [] }],
    data := List.replicate 4096 0 }

/-- `chunkBuilder.paletteIndex`: nil is index 0; a known canonical key reuses
its index; otherwise append.  (The Go struct keeps an index map keyed by
`blockStateKey`; the lookup is modelled by scanning insertion order.) -/
def ChunkBuilder.paletteIndex (cb : ChunkBuilder) (block : Option BlockState) :
    ChunkBuilder × Nat :=
  match block with
  | none => (cb, 0)
  | some b =>
    match cb.entries.findIdx? (fun e => blockStateKey e == blockStateKey b) with
    | some i => (cb, i)
    | none => ({ cb with entries := cb.entries ++ [b] }, cb.entries.length)

/-- `chunkBuilder.set`: store the palette index at local index
`localY*256 + localZ*16 + localX`. -/
def ChunkBuilder.set (cb : ChunkBuilder) (localX localY localZ : Nat)
    (block : Option BlockState) : ChunkBuilder :=
  let st := cb.paletteIndex block
  { st.1 with data := st.1.data.set (localY * 256 + localZ * 16 + localX) st.2 }

/-- The `BlockStates` compound of a chunk. -/
structure ChunkStatesNBT where
  palette : List BlockState
  data : List Nat

/-- A chunk record. -/
structure ChunkNBT where
  X : Int
  Y : Int
  Z : Int
  blockStates : ChunkStatesNBT

/-- `chunkBuilder.toNBT`: pack the 4096 cells with the block-aligned packer
at the chunk palette's `bitsPerBlock`. -/
def ChunkBuilder.toNBT (cb : ChunkBuilder) (x y z : Int) : ChunkNBT :=
  { X := x, Y := y, Z := z,
    blockStates := { palette := cb.entries,
                     data := PackLongArray cb.data (bitsPerBlock cb.entries.length) } }

/-- The Axiom reader's per-chunk cell values: unpack exactly 4096 entries at
the chunk palette's `bitsPerBlock`. -/
def axiomChunkValues (c : ChunkNBT) : List Nat :=
  UnpackLongArray c.blockStates.data (bitsPerBlock c.blockStates.palette.length) 4096

/-- The Axiom reader's non-empty cells of one chunk, at global coordinates
(Read, axiom.go): local index `idx` decomposes as `localY = idx / 256`,
`localZ = idx % 256 / 16`, `localX = idx % 256 % 16`. -/
def axiomChunkCells (c : ChunkNBT) : List (Int × Int × Int × BlockState) :=
  (axiomChunkValues c).enum.filterMap fun iv =>
    match c.blockStates.palette[iv.2]? with
    | none => none
    | some block =>
      if isEmptyBlock block.name then none
      else
        let localY : Nat := iv.1 / 256
        let rem : Nat := iv.1 % 256
        let localZ : Nat := rem / 16
        let localX : Nat := rem % 16
        some (c.X * 16 + localX, c.Y * 16 + localY, c.Z * 16 + localZ, block)

/-! ## Litematica v6 reader core (litematica.go) -/

/-- The decoded fields of one region that the dimension/offset computation
of `ReadV6` consumes. -/
structure RegionV6 where
  posX : Int
  posY : Int
  posZ : Int
  sizeX : Int
  sizeY : Int
  sizeZ : Int
  palette : List BlockState
  blockStates : List Nat

/-- `getOrigin` (litematica.go): `Position` for a non-negative `Size`
component, else `Position + Size + 1`. -/
def getOrigin (pos size : Int) : Int :=
  if 0 ≤ size then pos else pos + size + 1

/-- `bitsPerEntry` of `ReadV6`: `max(bits.Len(uint(len(palette)-1)), 2)`.
The Go `int`-to-`uint` conversion wraps `-1` (empty palette) to
`2^64 - 1`. -/
def litBitsPerEntry (palette : List BlockState) : Nat :=
  let m : Nat := if palette.length = 0 then 2 ^ 64 - 1 else palette.length - 1
  max (bitsLoop m) 2

/-- The region's decoded palette indices: tight unpacking over
`|Size.x| * |Size.y| * |Size.z|` cells. -/
def litBlockIndices (r : RegionV6) : List Nat :=
  UnpackLongArrayTight r.blockStates (litBitsPerEntry r.palette)
    (r.sizeX.natAbs * r.sizeY.natAbs * r.sizeZ.natAbs)

/-- The non-air placements `ReadV6` keeps, in its y-z-x scan order: cells
with an out-of-range linear index, an out-of-range palette index, or an
air-named block are skipped. -/
def litCells (r : RegionV6) : List (Nat × Nat × Nat × BlockState) :=
  let regW := r.sizeX.natAbs
  let regH := r.sizeY.natAbs
  let regL := r.sizeZ.natAbs
  let blockIndices := litBlockIndices r
  (List.range regH).flatMap fun y =>
    (List.range regL).flatMap fun z =>
      (List.range regW).filterMap fun x =>
        let idx := x + z * regW + y * regW * regL
        if blockIndices.length ≤ idx then none
        else
          match r.palette[blockIndices.getD idx 0]? with
          | none => none
          | some block =>
            if isAirBlock block.name then none else some (x, y, z, block)

/-- The running minimum of the kept x coordinates, seeded with
`math.MaxInt32` as in the source. -/
def litMinX (r : RegionV6) : Int :=
  (litCells r).foldl (fun m c => min m (c.1 : Int)) (2 ^ 31 - 1)

/-- Running minimum of the kept y coordinates. -/
def litMinY (r : RegionV6) : Int :=
  (litCells r).foldl (fun m c => min m (c.2.1 : Int)) (2 ^ 31 - 1)

/-- Running minimum of the kept z coordinates. -/
def litMinZ (r : RegionV6) : Int :=
  (litCells r).foldl (fun m c => min m (c.2.2.1 : Int)) (2 ^ 31 - 1)

/-- The running maximum of the kept x coordinates, seeded with
`math.MinInt32`. -/
def litMaxX (r : RegionV6) : Int :=
  (litCells r).foldl (fun m c => max m (c.1 : Int)) (-(2 ^ 31))

/-- Running maximum of the kept y coordinates. -/
def litMaxY (r : RegionV6) : Int :=
  (litCells r).foldl (fun m c => max m (c.2.1 : Int)) (-(2 ^ 31))

/-- Running maximum of the kept z coordinates. -/
def litMaxZ (r : RegionV6) : Int :=
  (litCells r).foldl (fun m c => max m (c.2.2.1 : Int)) (-(2 ^ 31))

/-- The dimension/offset/blocks core of `ReadV6` on one region: crop to the
bounding box of the kept cells (or keep the region extents when nothing was
kept), set the offset to the region origin shifted by the box minimum, and
place each kept block translated by the box minimum.  The metadata
recording and the tile-entity/entity translation of `ReadV6` are orthogonal
to this computation and not modelled. -/
def readV6Region (r : RegionV6) (dataVersion : Int) : SchematicImpl :=
  let originX := getOrigin r.posX r.sizeX
  let originY := getOrigin r.posY r.sizeY
  let originZ := getOrigin r.posZ r.sizeZ
  let cells := litCells r
  let minX := if cells.isEmpty then 0 else litMinX r
  let minY := if cells.isEmpty then 0 else litMinY r
  let minZ := if cells.isEmpty then 0 else litMinZ r
  let width : Int := if cells.isEmpty then (r.sizeX.natAbs : Int) else litMaxX r - litMinX r + 1
  let height : Int := if cells.isEmpty then (r.sizeY.natAbs : Int) else litMaxY r - litMinY r + 1
  let length : Int := if cells.isEmpty then (r.sizeZ.natAbs : Int) else litMaxZ r - litMinZ r + 1
  let s := New width height length "litematica_v6"
  let s := s.SetDataVersion dataVersion
  let s := s.SetOffset (originX + minX) (originY + minY) (originZ + minZ)
  cells.foldl (fun s c =>
    s.SetBlock ((c.1 : Int) - minX) ((c.2.1 : Int) - minY) ((c.2.2.1 : Int) - minZ)
      (some c.2.2.2)) s

/-! ## Sponge v1 codec (sponge.go ReadV1/WriteV1) -/

/-- NBT compound lookup by tag name, as the Go nbt decoder matches struct
fields. -/
def nbtGet (root : List (String × NbtTag)) (k : String) : Option NbtTag :=
  (root.find? (fun p => p.1 == k)).map (fun p => p.2)

/-- Decoding of an `int32`-typed struct field: a missing or differently
typed tag leaves the Go zero value `0`. -/
def fieldInt (root : List (String × NbtTag)) (k : String) : Int :=
  match nbtGet root k with
  | some (.intTag v) => v
  | _ => 0

/-- Decoding of an `int16`-typed struct field (zero value on a miss). -/
def fieldShort (root : List (String × NbtTag)) (k : String) : Int :=
  match nbtGet root k with
  | some (.shortTag v) => v
  | _ => 0

/-- Decoding of an `[]int32` struct field (nil slice on a miss). -/
def fieldIntArr (root : List (String × NbtTag)) (k : String) : List Int :=
  match nbtGet root k with
  | some (.intArrTag vs) => vs
  | _ => []

/-- Decoding of a `[]byte` struct field (nil slice on a miss). -/
def fieldByteArr (root : List (String × NbtTag)) (k : String) : List Nat :=
  match nbtGet root k with
  | some (.byteArrTag bs) => bs
  | _ => []

/-- Decoding of a `map[string]int32` struct field as an association list
(nil map on a miss); only integer-valued children are kept. -/
def fieldIntMap (root : List (String × NbtTag)) (k : String) : List (String × Int) :=
  match nbtGet root k with
  | some (.compTag fs) =>
    fs.filterMap (fun p => match p.2 with | .intTag v => some (p.1, v) | _ => none)
  | _ => []

/-- Decoding of a `map[string]any` struct field, keeping the raw child
tags (nil map on a miss). -/
def fieldComp (root : List (String × NbtTag)) (k : String) : List (String × NbtTag) :=
  match nbtGet root k with
  | some (.compTag fs) => fs
  | _ => []

/-- Decoding of a `[]map[string]any` struct field (nil slice on a miss). -/
def fieldCompList (root : List (String × NbtTag)) (k : String) :
    List (List (String × NbtTag)) :=
  match nbtGet root k with
  | some (.listTag ts) =>
    ts.filterMap (fun t => match t with | .compTag fs => some fs | _ => none)
  | _ => []

/-- `v1NBT` (sponge.go): the struct the Sponge v1 codec decodes into and
encodes from. -/
structure V1NBT where
  Version : Int
  DataVersion : Int
  Width : Int
  Height : Int
  Length : Int
  Offset : List Int
  Metadata : List (String × NbtTag)
  PaletteMax : Int
  Palette : List (String × Int)
  BlockData : List Nat
  TileEntities : List (List (String × NbtTag))

/-- Go nbt decoding of a root compound into `v1NBT`: each field is looked
up by its tag name; a missing tag leaves the Go zero value. -/
def decodeV1NBT (root : List (String × NbtTag)) : V1NBT :=
  { Version := fieldInt root "Version"
    DataVersion := fieldInt root "DataVersion"
    Width := fieldShort root "Width"
    Height := fieldShort root "Height"
    Length := fieldShort root "Length"
    Offset := fieldIntArr root "Offset"
    Metadata := fieldComp root "Metadata"
    PaletteMax := fieldInt root "PaletteMax"
    Palette := fieldIntMap root "Palette"
    BlockData := fieldByteArr root "BlockData"
    TileEntities := fieldCompList root "TileEntities" }

/-- Go nbt encoding of `v1NBT` back to a compound: fields in struct order,
the `omitempty` fields (`Offset`, `Metadata`, `TileEntities`) dropped when
empty. -/
def encodeV1NBT (d : V1NBT) : List (String × NbtTag) :=
  [("Version", NbtTag.intTag d.Version), ("DataVersion", NbtTag.intTag d.DataVersion),
   ("Width", NbtTag.shortTag d.Width), ("Height", NbtTag.shortTag d.Height),
   ("Length", NbtTag.shortTag d.Length)]
  ++ (if d.Offset.isEmpty then [] else [("Offset", NbtTag.intArrTag d.Offset)])
  ++ (if d.Metadata.isEmpty then [] else [("Metadata", NbtTag.compTag d.Metadata)])
  ++ [("PaletteMax", NbtTag.intTag d.PaletteMax),
      ("Palette", NbtTag.compTag (d.Palette.map (fun p => (p.1, NbtTag.intTag p.2)))),
      ("BlockData", NbtTag.byteArrTag d.BlockData)]
  ++ (if d.TileEntities.isEmpty then []
      else [("TileEntities", NbtTag.listTag (d.TileEntities.map NbtTag.compTag))])

/-- The error outcomes of `ReadV1`. -/
inductive SpongeErr where
  | wrongVersion (got : Int)
  | invalidDimensions (w h l : Int)
  | decodeBlockData

/-- `ReadV1` (sponge.go) after the gzip/NBT byte layer: decode the root
compound as `v1NBT`, require `Version = 1` and positive dimensions, apply
offset (when at least three components), metadata, the palette array
(`make([]*BlockState, PaletteMax+1)` filled wherever the mapped index is in
range — a negative index would panic in Go and is skipped here), the
VarInt-decoded block indices placed in y-z-x order, and the tile entities
(`Pos` is read through a `[]any` type assertion, which fails on the
int-array tag the writer emits, leaving the zero position). -/
def readV1 (root : List (String × NbtTag)) : Except SpongeErr SchematicImpl :=
  let data := decodeV1NBT root
  if data.Version ≠ 1 then .error (.wrongVersion data.Version)
  else
    let width := data.Width
    let height := data.Height
    let length := data.Length
    if width ≤ 0 ∨ height ≤ 0 ∨ length ≤ 0 then
      .error (.invalidDimensions width height length)
    else
      let s := New width height length "sponge_v1"
      let s := s.SetDataVersion data.DataVersion
      let s := if 3 ≤ data.Offset.length then
          s.SetOffset (data.Offset.getD 0 0) (data.Offset.getD 1 0) (data.Offset.getD 2 0)
        else s
      let s := data.Metadata.foldl (fun s p => s.SetMetadata p.1 p.2) s
      let palette : List (Option BlockState) :=
        data.Palette.foldl (fun arr p =>
          if 0 ≤ p.2 ∧ p.2 < (arr.length : Int) then
            arr.set p.2.toNat (some (ParseBlockState p.1))
          else arr)
          (List.replicate (data.PaletteMax + 1).toNat none)
      let blockCount := (width * height * length).toNat
      match DecodeVarIntArray data.BlockData blockCount with
      | none => .error .decodeBlockData
      | some blockIndices =>
        let s := (List.range height.toNat).foldl (fun s y =>
          (List.range length.toNat).foldl (fun s z =>
            (List.range width.toNat).foldl (fun s x =>
              let idx := x + z * width.toNat + y * width.toNat * length.toNat
              if blockIndices.length ≤ idx then s
              else
                match palette.getD (blockIndices.getD idx 0) none with
                | none => s
                | some b => s.SetBlock (x : Int) (y : Int) (z : Int) (some b)) s) s) s
        let s := data.TileEntities.foldl (fun s te =>
          let pos : Int × Int × Int := match nbtGet te "Pos" with
            | some (.listTag ts) =>
              if 3 ≤ ts.length then
                ((match ts.getD 0 (.intTag 0) with | .intTag v => v | _ => 0),
                 (match ts.getD 1 (.intTag 0) with | .intTag v => v | _ => 0),
                 (match ts.getD 2 (.intTag 0) with | .intTag v => v | _ => 0))
              else (0, 0, 0)
            | _ => (0, 0, 0)
          let id := match nbtGet te "Id" with
            | some (.stringTag v) => v
            | _ => ""
          let rest := te.filter (fun q => q.1 ≠ "Pos" ∧ q.1 ≠ "Id")
          s.SetBlockEntity pos.1 pos.2.1 pos.2.2
            (some { ID := id, X := pos.1, Y := pos.2.1, Z := pos.2.2, Data := rest })) s
        .ok s

/-- The y-z-x palette/block-index building loop of `WriteV1`: the loop
visits linear indices `x + z*width + y*width*length` in increasing order,
so index-order appending reproduces the preallocated Go slice. -/
def spongeBuildIndices (s : SchematicImpl) : Palette × List Nat :=
  (List.range s.height.toNat).foldl (fun acc y =>
    (List.range s.length.toNat).foldl (fun acc z =>
      (List.range s.width.toNat).foldl (fun acc x =>
        match s.Block x y z with
        | none => (acc.1, acc.2 ++ [0])
        | some b =>
          let pi := acc.1.Add b
          (pi.1, acc.2 ++ [pi.2])) acc) acc)
    (NewPaletteWithAir, [])

/-- The `v1NBT` value `WriteV1` builds from a schematic.  The Go
`map[string]int32` palette map is modelled in palette index order (Go map
iteration order is unspecified); `maps.Copy(teData, be.Data)` overwrites
the `Pos`/`Id` seeds on a key clash, modelled by the `putStr` fold. -/
def buildV1 (s : SchematicImpl) : V1NBT :=
  let pi := spongeBuildIndices s
  { Version := 1
    DataVersion := toInt32 s.dataVersion
    Width := toInt16 s.width
    Height := toInt16 s.height
    Length := toInt16 s.length
    Offset := [toInt32 s.offsetX, toInt32 s.offsetY, toInt32 s.offsetZ]
    Metadata := s.metadata
    PaletteMax := toInt32 ((pi.1.Size : Int) - 1)
    Palette := pi.1.blocks.enum.map (fun p => (p.2.String, (p.1 : Int)))
    BlockData := EncodeVarIntArray pi.2
    TileEntities := (List.range s.height.toNat).flatMap (fun y =>
      (List.range s.length.toNat).flatMap (fun z =>
        (List.range s.width.toNat).filterMap (fun x =>
          match s.BlockEntityAt (x : Int) (y : Int) (z : Int) with
          | none => none
          | some be => some (be.Data.foldl (fun m p => putStr m p.1 p.2)
              [("Pos", NbtTag.intArrTag [(x : Int), (y : Int), (z : Int)]),
               ("Id", NbtTag.stringTag be.ID)])))) }

/-- The root compound `WriteV1` hands to the NBT encoder: the `v1NBT`
struct wrapped inside an anonymous struct with the single field
`Schematic`. -/
def writeV1 (s : SchematicImpl) : List (String × NbtTag) :=
  [("Schematic", NbtTag.compTag (encodeV1NBT (buildV1 s)))]

end Schem

namespace Schem

theorem ofBase_lt (B : Nat) : ∀ (ds : List Nat), (∀ d ∈ ds, d < B) →
    ofBase B ds < B ^ ds.length := by
  intro ds
  induction ds with
  | nil => intro _; simp [ofBase]
  | cons d ds ih =>
    intro h
    have hd : d < B := h d (by simp)
    have ht : ofBase B ds < B ^ ds.length := ih fun x hx => h x (by simp [hx])
    have h1 : d + B * ofBase B ds + 1 ≤ B + B * ofBase B ds := by omega
    have h2 : B + B * ofBase B ds ≤ B * B ^ ds.length := by
      have h3 : B * (ofBase B ds + 1) ≤ B * B ^ ds.length :=
        Nat.mul_le_mul_left B ht
      have h4 : B * (ofBase B ds + 1) = B * ofBase B ds + B := by ring
      omega
    calc ofBase B (d :: ds) < B + B * ofBase B ds := by simp [ofBase]; omega
      _ ≤ B * B ^ ds.length := h2
      _ = B ^ (ds.length + 1) := by rw [Nat.pow_succ, Nat.mul_comm]
      _ = B ^ (d :: ds).length := by simp

theorem ofBase_append (B v : Nat) : ∀ (ds : List Nat),
    ofBase B (ds ++ [v]) = ofBase B ds + v * B ^ ds.length := by
  intro ds
  induction ds with
  | nil => simp [ofBase]
  | cons d ds ih =>
    show d + B * ofBase B (ds ++ [v]) = d + B * ofBase B ds + v * B ^ (ds.length + 1)
    rw [ih]
    ring

theorem ofBase_digit (B : Nat) : ∀ (ds : List Nat) (k : Nat), (∀ d ∈ ds, d < B) →
    ofBase B ds / B ^ k % B = ds.getD k 0 := by
  intro ds
  induction ds with
  | nil => intro k _; simp [ofBase]
  | cons d ds ih =>
    intro k h
    have hd : d < B := h d (by simp)
    have hB : 0 < B := Nat.lt_of_le_of_lt (Nat.zero_le d) hd
    match k with
    | 0 =>
      simp only [ofBase, Nat.pow_zero, Nat.div_one, List.getD_cons_zero]
      rw [Nat.add_mul_mod_self_left, Nat.mod_eq_of_lt hd]
    | k + 1 =>
      have hdiv : ofBase B (d :: ds) / B ^ (k + 1) = ofBase B ds / B ^ k := by
        rw [show (B : Nat) ^ (k + 1) = B * B ^ k from by rw [Nat.pow_succ, Nat.mul_comm],
          ← Nat.div_div_eq_div_mul]
        have : ofBase B (d :: ds) / B = ofBase B ds := by
          simp only [ofBase]
          rw [Nat.add_mul_div_left _ _ hB, Nat.div_eq_of_lt hd, Nat.zero_add]
        rw [this]
      rw [hdiv, List.getD_cons_succ]
      exact ih k fun x hx => h x (by simp [hx])

theorem getD_set_self (l : List Nat) (j v : Nat) (h : j < l.length) :
    (l.set j v).getD j 0 = v := by
  simp [List.getD_eq_getElem?_getD, List.getElem?_set_self (l := l) (a := v) h]

theorem getD_set_ne (l : List Nat) (i j v : Nat) (h : i ≠ j) :
    (l.set i v).getD j 0 = l.getD j 0 := by
  simp [List.getD_eq_getElem?_getD, List.getElem?_set_ne (l := l) (a := v) h]

theorem getD_replicate (n j : Nat) : (List.replicate n (0 : Nat)).getD j 0 = 0 := by
  rcases Nat.lt_or_ge j n with h | h
  · simp [List.getD_eq_getElem?_getD, List.getElem?_replicate, h]
  · simp [List.getD_eq_getElem?_getD, List.getElem?_replicate, Nat.not_lt.mpr h]

theorem packGo_length (b : Nat) : ∀ (vs : List Nat) (i : Nat) (longs : List Nat),
    (packGo b vs i longs).length = longs.length := by
  intro vs
  induction vs with
  | nil => intro i longs; rfl
  | cons v vs ih =>
    intro i longs
    rw [packGo, ih]
    simp [packStep]

theorem packTightGo_length (b : Nat) : ∀ (vs : List Nat) (p : Nat) (longs : List Nat),
    (packTightGo b vs p longs).length = longs.length := by
  intro vs
  induction vs with
  | nil => intro p longs; rfl
  | cons v vs ih =>
    intro p longs
    rw [packTightGo, ih]
    unfold writeTight
    dsimp only
    split
    · simp
    · split <;> simp

theorem chunk_append_lt (P : List Nat) (v : Nat) (per j : Nat)
    (h : (j + 1) * per ≤ P.length) :
    ((P ++ [v]).drop (j * per)).take per = (P.drop (j * per)).take per := by
  have hmul : (j + 1) * per = j * per + per := by ring
  rw [List.drop_append_eq_append_drop]
  have h1 : j * per - P.length = 0 := by omega
  rw [h1, List.take_append_eq_append_take]
  have h2 : per ≤ (P.drop (j * per)).length := by
    rw [List.length_drop]; omega
  have h3 : per - (P.drop (j * per)).length = 0 := by omega
  rw [h3]
  simp

theorem chunk_append_ge (P : List Nat) (v : Nat) (per j : Nat)
    (h : P.length + 1 ≤ j * per) :
    ((P ++ [v]).drop (j * per)).take per = (P.drop (j * per)).take per := by
  have h1 : P.drop (j * per) = [] := List.drop_eq_nil_of_le (by omega)
  have h2 : (P ++ [v]).drop (j * per) = [] := by
    apply List.drop_eq_nil_of_le
    simp only [List.length_append, List.length_cons, List.length_nil]
    omega
  rw [h1, h2]

theorem chunk_append_self (P : List Nat) (v : Nat) (per j : Nat)
    (hle : j * per ≤ P.length) (hlt : P.length < (j + 1) * per) :
    ((P ++ [v]).drop (j * per)).take per = P.drop (j * per) ++ [v] := by
  have hmul : (j + 1) * per = j * per + per := by ring
  rw [List.drop_append_eq_append_drop]
  have h1 : j * per - P.length = 0 := by omega
  rw [h1, List.drop_zero]
  apply List.take_of_length_le
  simp only [List.length_append, List.length_drop, List.length_cons, List.length_nil]
  omega

theorem chunk_take_self (P : List Nat) (per j : Nat)
    (hlt : P.length < (j + 1) * per) :
    (P.drop (j * per)).take per = P.drop (j * per) := by
  have hmul : (j + 1) * per = j * per + per := by ring
  apply List.take_of_length_le
  rw [List.length_drop]
  omega


theorem getD_drop (l : List Nat) : ∀ (m k : Nat), (l.drop m).getD k 0 = l.getD (m + k) 0 := by
  induction l with
  | nil => intro m k; simp
  | cons x xs ih =>
    intro m k
    match m with
    | 0 => simp
    | m + 1 =>
      show (xs.drop m).getD k 0 = (x :: xs).getD (m + 1 + k) 0
      rw [show m + 1 + k = (m + k) + 1 from by omega, List.getD_cons_succ]
      exact ih m k

theorem getD_take (l : List Nat) (n k : Nat) (h : k < n) :
    (l.take n).getD k 0 = l.getD k 0 := by
  simp [List.getD_eq_getElem?_getD, List.getElem?_take_of_lt h]

theorem packStep_spec (b per : Nat) (hb1 : 1 ≤ b) (hb2 : b ≤ 64) (hper : per = 64 / b)
    (P : List Nat) (v : Nat) (longs : List Nat)
    (hP : ∀ x ∈ P, x < 2 ^ b) (hv : v < 2 ^ b)
    (hlen : P.length < longs.length * per)
    (hinv : ∀ j, longs.getD j 0 = ofBase (2 ^ b) ((P.drop (j * per)).take per)) :
    ∀ j, (packStep b longs P.length v).getD j 0
      = ofBase (2 ^ b) (((P ++ [v]).drop (j * per)).take per) := by
  intro j
  have hper0 : 0 < per := by
    rw [hper]
    exact Nat.le_div_iff_mul_le (by omega) |>.mpr (by omega)
  have hperb : per * b ≤ 64 := by
    rw [hper]
    exact Nat.div_mul_le_self 64 b
  have hdm : per * (P.length / per) + P.length % per = P.length := Nat.div_add_mod _ _
  have hmod : P.length % per < per := Nat.mod_lt _ hper0
  have hjmc : P.length / per * per = per * (P.length / per) := Nat.mul_comm _ _
  have hup : P.length < (P.length / per + 1) * per := by
    have h : (P.length / per + 1) * per = per * (P.length / per) + per := by ring
    omega
  have hj0lt : P.length / per < longs.length := (Nat.div_lt_iff_lt_mul hper0).mpr hlen
  rw [packStep]
  simp only [← hper]
  rcases Nat.lt_trichotomy j (P.length / per) with hj | hj | hj
  · rw [getD_set_ne _ _ _ _ (by omega)]
    rw [hinv j, chunk_append_lt]
    calc (j + 1) * per ≤ P.length / per * per := Nat.mul_le_mul_right per (by omega)
      _ = per * (P.length / per) := hjmc
      _ ≤ P.length := by omega
  · rw [← hj] at hdm hjmc hup hj0lt
    rw [← hj]
    rw [getD_set_self _ _ _ hj0lt]
    have hC : (P.drop (j * per)).take per = P.drop (j * per) :=
      chunk_take_self P per j hup
    have hClen : (P.drop (j * per)).length = P.length % per := by
      rw [List.length_drop]; omega
    have hexp : P.length % per * b + b ≤ 64 := by
      have h1 : (P.length % per + 1) * b ≤ per * b := Nat.mul_le_mul_right b (by omega)
      have h3 : (P.length % per + 1) * b = P.length % per * b + b := by ring
      omega
    have hshift : v <<< (P.length % per * b) % 2 ^ 64 = v * 2 ^ (P.length % per * b) := by
      rw [Nat.shiftLeft_eq]
      apply Nat.mod_eq_of_lt
      calc v * 2 ^ (P.length % per * b) < 2 ^ b * 2 ^ (P.length % per * b) :=
            (Nat.mul_lt_mul_right (Nat.two_pow_pos _)).mpr hv
        _ = 2 ^ (b + P.length % per * b) := by rw [Nat.pow_add]
        _ ≤ 2 ^ 64 := Nat.pow_le_pow_right (by omega) (by omega)
    have hCval : ofBase (2 ^ b) (P.drop (j * per)) < 2 ^ (P.length % per * b) := by
      have h1 := ofBase_lt (2 ^ b) (P.drop (j * per))
        (fun x hx => hP x (List.mem_of_mem_drop hx))
      rw [hClen] at h1
      calc ofBase (2 ^ b) (P.drop (j * per)) < (2 ^ b) ^ (P.length % per) := h1
        _ = 2 ^ (b * (P.length % per)) := (Nat.pow_mul 2 b (P.length % per)).symm
        _ = 2 ^ (P.length % per * b) := by rw [Nat.mul_comm]
    rw [hinv j, hC, hshift, chunk_append_self P v per j (by omega) hup,
      ofBase_append, hClen]
    have hpow : ((2 : Nat) ^ b) ^ (P.length % per) = 2 ^ (P.length % per * b) := by
      rw [← Nat.pow_mul, Nat.mul_comm]
    rw [hpow]
    have hor := Nat.mul_add_lt_is_or hCval v
    rw [Nat.or_comm] at hor
    rw [Nat.mul_comm (2 ^ (P.length % per * b)) v] at hor
    omega
  · rw [getD_set_ne _ _ _ _ (by omega)]
    rw [hinv j, chunk_append_ge]
    have h2 : (P.length / per + 1) * per ≤ j * per := Nat.mul_le_mul_right per (by omega)
    have h3 : (P.length / per + 1) * per = per * (P.length / per) + per := by ring
    omega

theorem packGo_spec (b per : Nat) (hb1 : 1 ≤ b) (hb2 : b ≤ 64) (hper : per = 64 / b) :
    ∀ (vs P longs : List Nat),
      (∀ v ∈ P, v < 2 ^ b) → (∀ v ∈ vs, v < 2 ^ b) →
      P.length + vs.length ≤ longs.length * per →
      (∀ j, longs.getD j 0 = ofBase (2 ^ b) ((P.drop (j * per)).take per)) →
      ∀ j, (packGo b vs P.length longs).getD j 0
        = ofBase (2 ^ b) (((P ++ vs).drop (j * per)).take per) := by
  intro vs
  induction vs with
  | nil =>
    intro P longs _ _ _ hinv j
    simpa using hinv j
  | cons v vs ih =>
    intro P longs hP hvs hcap hinv j
    have hv : v < 2 ^ b := hvs v (by simp)
    have hlen : P.length < longs.length * per := by
      have h := hcap
      simp only [List.length_cons] at h
      omega
    have hstep := packStep_spec b per hb1 hb2 hper P v longs hP hv hlen hinv
    have hsteplen : (packStep b longs P.length v).length = longs.length := by
      simp [packStep]
    have hcap' : (P ++ [v]).length + vs.length ≤ (packStep b longs P.length v).length * per := by
      rw [hsteplen]
      simp only [List.length_append, List.length_cons, List.length_nil]
      have h := hcap
      simp only [List.length_cons] at h
      omega
    have ihres := ih (P ++ [v]) (packStep b longs P.length v)
      (by
        intro x hx
        rcases List.mem_append.mp hx with h | h
        · exact hP x h
        · simp at h; subst h; exact hv)
      (fun x hx => hvs x (by simp [hx])) hcap' hstep
    have hres := ihres j
    rw [show (P ++ [v]).length = P.length + 1 from by simp] at hres
    rw [show packGo b (v :: vs) P.length longs
        = packGo b vs (P.length + 1) (packStep b longs P.length v) from rfl]
    simpa [List.append_assoc] using hres

theorem PackLongArray_length (V : List Nat) (b : Nat) (hb : b ≠ 0) :
    (PackLongArray V b).length = (V.length + 64 / b - 1) / (64 / b) := by
  rw [PackLongArray, if_neg hb]
  exact packGo_length b V 0 _ |>.trans (List.length_replicate _ _)

theorem PackLongArray_getD (b : Nat) (hb1 : 1 ≤ b) (hb2 : b ≤ 64) (V : List Nat)
    (hV : ∀ v ∈ V, v < 2 ^ b) (j : Nat) :
    (PackLongArray V b).getD j 0
      = ofBase (2 ^ b) ((V.drop (j * (64 / b))).take (64 / b)) := by
  have hper0 : 0 < 64 / b := Nat.le_div_iff_mul_le (by omega) |>.mpr (by omega)
  rw [PackLongArray, if_neg (by omega)]
  have hcap2 : V.length ≤ (V.length + 64 / b - 1) / (64 / b) * (64 / b) := by
    have hdm := Nat.div_add_mod (V.length + 64 / b - 1) (64 / b)
    have hm : (V.length + 64 / b - 1) % (64 / b) < 64 / b := Nat.mod_lt _ hper0
    have hc : (V.length + 64 / b - 1) / (64 / b) * (64 / b)
        = 64 / b * ((V.length + 64 / b - 1) / (64 / b)) := Nat.mul_comm _ _
    omega
  have h := packGo_spec b (64 / b) hb1 hb2 rfl V []
    (List.replicate ((V.length + 64 / b - 1) / (64 / b)) 0)
    (by intro x hx; simp at hx) hV
    (by simp only [List.length_nil, List.length_replicate, Nat.zero_add]; exact hcap2)
    (by intro j'; rw [getD_replicate]; simp [ofBase])
    j
  simpa using h

theorem UnpackLongArray_PackLongArray (b : Nat) (V : List Nat) (hb1 : 1 ≤ b) (hb2 : b ≤ 64)
    (hV : ∀ v ∈ V, v < 2 ^ b) :
    UnpackLongArray (PackLongArray V b) b V.length = V := by
  have hper0 : 0 < 64 / b := Nat.le_div_iff_mul_le (by omega) |>.mpr (by omega)
  by_cases hV0 : V = []
  · subst hV0
    have hp : PackLongArray [] b = [] := by
      rw [PackLongArray, if_neg (by omega)]
      show List.replicate ((0 + 64 / b - 1) / (64 / b)) 0 = []
      rw [Nat.div_eq_of_lt (by omega)]
      rfl
    rw [hp]
    rw [UnpackLongArray, if_pos (Or.inr rfl)]
    rfl
  · have hlen := PackLongArray_length V b (by omega)
    have hV1 : 0 < V.length := List.length_pos.mpr hV0
    have hLpos : 0 < (V.length + 64 / b - 1) / (64 / b) :=
      Nat.le_div_iff_mul_le hper0 |>.mpr (by omega)
    have hne : PackLongArray V b ≠ [] := by
      apply List.length_pos.mp
      rw [hlen]
      exact hLpos
    have hcap2 : V.length ≤ (V.length + 64 / b - 1) / (64 / b) * (64 / b) := by
      have hdm := Nat.div_add_mod (V.length + 64 / b - 1) (64 / b)
      have hm : (V.length + 64 / b - 1) % (64 / b) < 64 / b := Nat.mod_lt _ hper0
      have hc : (V.length + 64 / b - 1) / (64 / b) * (64 / b)
          = 64 / b * ((V.length + 64 / b - 1) / (64 / b)) := Nat.mul_comm _ _
      omega
    rw [UnpackLongArray, if_neg (by push_neg; exact ⟨by omega, hne⟩)]
    apply List.ext_getElem (by simp)
    intro i h1 h2
    simp only [List.getElem_map, List.getElem_range]
    have hilen : i < V.length := by simpa using h2
    have hiper : i / (64 / b) < (PackLongArray V b).length := by
      rw [hlen]
      exact (Nat.div_lt_iff_lt_mul hper0).mpr (by omega)
    rw [if_pos hiper]
    rw [PackLongArray_getD b hb1 hb2 V hV]
    rw [Nat.one_shiftLeft, Nat.shiftRight_eq_div_pow, Nat.and_pow_two_sub_one_eq_mod]
    have hmem : ∀ d ∈ (V.drop (i / (64 / b) * (64 / b))).take (64 / b), d < 2 ^ b :=
      fun d hd => hV d (List.mem_of_mem_drop (List.mem_of_mem_take hd))
    have hdig := ofBase_digit (2 ^ b) _ (i % (64 / b)) hmem
    rw [show (2 : Nat) ^ (i % (64 / b) * b) = ((2 : Nat) ^ b) ^ (i % (64 / b)) from by
      rw [← Nat.pow_mul, Nat.mul_comm]]
    rw [hdig]
    rw [getD_take _ _ _ (Nat.mod_lt _ hper0), getD_drop]
    have hidx : i / (64 / b) * (64 / b) + i % (64 / b) = i := by
      have hdm := Nat.div_add_mod i (64 / b)
      have hc : i / (64 / b) * (64 / b) = 64 / b * (i / (64 / b)) := Nat.mul_comm _ _
      omega
    rw [hidx]
    simp [List.getD_eq_getElem?_getD, List.getElem?_eq_getElem hilen]

theorem digit_zero (x j : Nat) (hx : x < 2 ^ (64 * j)) : x / 2 ^ (64 * j) % 2 ^ 64 = 0 := by
  rw [Nat.div_eq_of_lt hx]
  rfl

theorem digit_low (S v p j : Nat) (hj : 64 * (j + 1) ≤ p) :
    (S + v * 2 ^ p) / 2 ^ (64 * j) % 2 ^ 64 = S / 2 ^ (64 * j) % 2 ^ 64 := by
  have hsplit : v * 2 ^ p = v * 2 ^ (p - 64 * j - 64) * 2 ^ 64 * 2 ^ (64 * j) := by
    rw [Nat.mul_assoc, Nat.mul_assoc, ← Nat.pow_add, ← Nat.pow_add]
    congr 2
    omega
  rw [hsplit, Nat.add_mul_div_right _ _ (Nat.two_pow_pos (64 * j)),
    Nat.add_mul_mod_self_right]

theorem mod64_div_mod (x s w : Nat) (h : s + w ≤ 64) :
    x % 2 ^ 64 / 2 ^ s % 2 ^ w = x / 2 ^ s % 2 ^ w := by
  rw [Nat.div_mod_eq_mod_mul_div, Nat.div_mod_eq_mod_mul_div, ← Nat.pow_add,
    Nat.mod_mod_of_dvd x (Nat.pow_dvd_pow 2 h)]

theorem mod_split (x s t : Nat) :
    x % 2 ^ s + x / 2 ^ s % 2 ^ t * 2 ^ s = x % 2 ^ (s + t) := by
  have h1 : x / 2 ^ s % 2 ^ t = x % 2 ^ (s + t) / 2 ^ s := by
    rw [Nat.div_mod_eq_mod_mul_div, ← Nat.pow_add]
  have h2 : x % 2 ^ s = x % 2 ^ (s + t) % 2 ^ s :=
    (Nat.mod_mod_of_dvd x (Nat.pow_dvd_pow 2 (by omega))).symm
  rw [h1, h2, Nat.mul_comm]
  calc x % 2 ^ (s + t) % 2 ^ s + 2 ^ s * (x % 2 ^ (s + t) / 2 ^ s)
      = x % 2 ^ (s + t) := Nat.mod_add_div _ _

theorem writeTight_spec (b : Nat) (hb1 : 1 ≤ b) (hb2 : b ≤ 64)
    (S v p : Nat) (longs : List Nat)
    (hS : S < 2 ^ p) (hv : v < 2 ^ b)
    (hcap : p + b ≤ longs.length * 64)
    (hinv : ∀ j, longs.getD j 0 = S / 2 ^ (64 * j) % 2 ^ 64) :
    ∀ j, (writeTight longs p b v).getD j 0
      = (S + v * 2 ^ p) / 2 ^ (64 * j) % 2 ^ 64 := by
  intro j
  have hdm : 64 * (p / 64) + p % 64 = p := Nat.div_add_mod p 64
  have hoff : p % 64 < 64 := Nat.mod_lt _ (by omega)
  have hmc : longs.length * 64 = 64 * longs.length := Nat.mul_comm _ _
  have hj0 : p / 64 < longs.length := by
    apply (Nat.div_lt_iff_lt_mul (by omega)).mpr
    omega
  -- the digit of `S` at or above the write position is the bits of `S`
  -- above `64 * (p / 64)`, which all sit below the write offset
  have hSd : S / 2 ^ (64 * (p / 64)) < 2 ^ (p % 64) := by
    apply (Nat.div_lt_iff_lt_mul (Nat.two_pow_pos _)).mpr
    calc S < 2 ^ p := hS
      _ = 2 ^ (p % 64) * 2 ^ (64 * (p / 64)) := by rw [← Nat.pow_add]; congr 1; omega
  have hSdm : S / 2 ^ (64 * (p / 64)) % 2 ^ 64 = S / 2 ^ (64 * (p / 64)) :=
    Nat.mod_eq_of_lt (lt_of_lt_of_le hSd (Nat.pow_le_pow_right (by omega) (by omega)))
  have hdiv : (S + v * 2 ^ p) / 2 ^ (64 * (p / 64))
      = S / 2 ^ (64 * (p / 64)) + v * 2 ^ (p % 64) := by
    have hsplit : v * 2 ^ p = v * 2 ^ (p % 64) * 2 ^ (64 * (p / 64)) := by
      rw [Nat.mul_assoc, ← Nat.pow_add]
      congr 2
      omega
    rw [hsplit, Nat.add_mul_div_right _ _ (Nat.two_pow_pos _)]
  rw [writeTight]
  dsimp only
  by_cases hfit : b ≤ 64 - p % 64
  · rw [if_pos hfit]
    rcases Nat.lt_trichotomy j (p / 64) with hj | hj | hj
    · rw [getD_set_ne _ _ _ _ (by omega), hinv j, digit_low]
      omega
    · rw [← hj] at hj0 hSd hSdm hdiv ⊢
      rw [getD_set_self _ _ _ hj0, hinv j, hSdm, hdiv]
      have hvs : v <<< (p % 64) % 2 ^ 64 = v * 2 ^ (p % 64) := by
        rw [Nat.shiftLeft_eq]
        apply Nat.mod_eq_of_lt
        calc v * 2 ^ (p % 64) < 2 ^ b * 2 ^ (p % 64) :=
              (Nat.mul_lt_mul_right (Nat.two_pow_pos _)).mpr hv
          _ = 2 ^ (b + p % 64) := by rw [Nat.pow_add]
          _ ≤ 2 ^ 64 := Nat.pow_le_pow_right (by omega) (by omega)
      rw [hvs]
      have hor := Nat.mul_add_lt_is_or hSd v
      rw [Nat.or_comm, Nat.mul_comm (2 ^ (p % 64)) v] at hor
      have hsum : S / 2 ^ (64 * j) + v * 2 ^ (p % 64) < 2 ^ 64 := by
        have h1 : v * 2 ^ (p % 64) + 2 ^ (p % 64) ≤ 2 ^ b * 2 ^ (p % 64) := by
          have := (Nat.mul_le_mul_right (k := 2 ^ (p % 64)) (by omega : v + 1 ≤ 2 ^ b))
          calc v * 2 ^ (p % 64) + 2 ^ (p % 64) = (v + 1) * 2 ^ (p % 64) := by ring
            _ ≤ 2 ^ b * 2 ^ (p % 64) := this
        have h2 : (2 : Nat) ^ b * 2 ^ (p % 64) ≤ 2 ^ 64 := by
          rw [← Nat.pow_add]
          exact Nat.pow_le_pow_right (by omega) (by omega)
        omega
      rw [Nat.mod_eq_of_lt hsum]
      omega
    · rw [getD_set_ne _ _ _ _ (by omega), hinv j]
      have htop : S + v * 2 ^ p < 2 ^ (64 * j) := by
        have h1 : S + v * 2 ^ p < 2 ^ (b + p) := by
          have h2 : v * 2 ^ p + 2 ^ p ≤ 2 ^ b * 2 ^ p := by
            have := (Nat.mul_le_mul_right (k := 2 ^ p) (by omega : v + 1 ≤ 2 ^ b))
            calc v * 2 ^ p + 2 ^ p = (v + 1) * 2 ^ p := by ring
              _ ≤ 2 ^ b * 2 ^ p := this
          rw [Nat.pow_add]
          omega
        calc S + v * 2 ^ p < 2 ^ (b + p) := h1
          _ ≤ 2 ^ (64 * j) := Nat.pow_le_pow_right (by omega) (by omega)
      rw [digit_zero _ _ htop, digit_zero]
      calc S < 2 ^ p := hS
        _ ≤ 2 ^ (64 * j) := Nat.pow_le_pow_right (by omega) (by omega)
  · rw [if_neg hfit]
    have hj1 : p / 64 + 1 < longs.length := by
      apply Nat.lt_of_mul_lt_mul_left (a := 64)
      calc 64 * (p / 64 + 1) = 64 * (p / 64) + 64 := by ring
        _ < p + b := by omega
        _ ≤ 64 * longs.length := by omega
    rw [if_pos hj1]
    have hlow : v &&& (1 <<< (64 - p % 64)) - 1 = v % 2 ^ (64 - p % 64) := by
      rw [Nat.one_shiftLeft, Nat.and_pow_two_sub_one_eq_mod]
    have hhigh : v >>> (64 - p % 64) &&& (1 <<< (b - (64 - p % 64))) - 1
        = v / 2 ^ (64 - p % 64) := by
      rw [Nat.one_shiftLeft, Nat.and_pow_two_sub_one_eq_mod, Nat.shiftRight_eq_div_pow]
      apply Nat.mod_eq_of_lt
      apply (Nat.div_lt_iff_lt_mul (Nat.two_pow_pos _)).mpr
      calc v < 2 ^ b := hv
        _ = 2 ^ (b - (64 - p % 64)) * 2 ^ (64 - p % 64) := by
          rw [← Nat.pow_add]; congr 1; omega
    rcases Nat.lt_trichotomy j (p / 64) with hj | hj | hj
    · rw [getD_set_ne _ _ _ _ (by omega), getD_set_ne _ _ _ _ (by omega),
        hinv j, digit_low]
      omega
    · -- the low fragment of `v` goes to the top of long `p / 64`
      rw [← hj] at hj0 hSd hSdm hdiv
      rw [getD_set_ne _ _ _ _ (by omega)]
      rw [← hj]
      rw [getD_set_self _ _ _ hj0, hinv j, hSdm]
      rw [hlow]
      have hvs : ((v % 2 ^ (64 - p % 64)) <<< (p % 64)) % 2 ^ 64
          = v % 2 ^ (64 - p % 64) * 2 ^ (p % 64) := by
        rw [Nat.shiftLeft_eq]
        apply Nat.mod_eq_of_lt
        calc v % 2 ^ (64 - p % 64) * 2 ^ (p % 64)
            < 2 ^ (64 - p % 64) * 2 ^ (p % 64) :=
              (Nat.mul_lt_mul_right (Nat.two_pow_pos _)).mpr
                (Nat.mod_lt _ (Nat.two_pow_pos _))
          _ = 2 ^ 64 := by rw [← Nat.pow_add]; congr 1; omega
      rw [hvs]
      have hor := Nat.mul_add_lt_is_or hSd (v % 2 ^ (64 - p % 64))
      rw [Nat.or_comm, Nat.mul_comm (2 ^ (p % 64)) (v % 2 ^ (64 - p % 64))] at hor
      rw [hdiv]
      -- peel the part of `v` that overflows into the next long
      have hvsplit : v * 2 ^ (p % 64)
          = v % 2 ^ (64 - p % 64) * 2 ^ (p % 64) + v / 2 ^ (64 - p % 64) * 2 ^ 64 := by
        have hdm2 : 2 ^ (64 - p % 64) * (v / 2 ^ (64 - p % 64)) + v % 2 ^ (64 - p % 64) = v :=
          Nat.div_add_mod v _
        calc v * 2 ^ (p % 64)
            = (2 ^ (64 - p % 64) * (v / 2 ^ (64 - p % 64)) + v % 2 ^ (64 - p % 64))
                * 2 ^ (p % 64) := by rw [hdm2]
          _ = v % 2 ^ (64 - p % 64) * 2 ^ (p % 64)
                + v / 2 ^ (64 - p % 64) * (2 ^ (64 - p % 64) * 2 ^ (p % 64)) := by ring
          _ = v % 2 ^ (64 - p % 64) * 2 ^ (p % 64) + v / 2 ^ (64 - p % 64) * 2 ^ 64 := by
                rw [← Nat.pow_add]
                congr 3
                omega
      rw [hvsplit, ← Nat.add_assoc, Nat.add_mul_mod_self_right]
      have hsum : S / 2 ^ (64 * j) + v % 2 ^ (64 - p % 64) * 2 ^ (p % 64) < 2 ^ 64 := by
        have h1 : v % 2 ^ (64 - p % 64) * 2 ^ (p % 64) + 2 ^ (p % 64)
            ≤ 2 ^ (64 - p % 64) * 2 ^ (p % 64) := by
          have hm := Nat.mod_lt v (Nat.two_pow_pos (64 - p % 64))
          have := (Nat.mul_le_mul_right (k := 2 ^ (p % 64))
            (by omega : v % 2 ^ (64 - p % 64) + 1 ≤ 2 ^ (64 - p % 64)))
          calc v % 2 ^ (64 - p % 64) * 2 ^ (p % 64) + 2 ^ (p % 64)
              = (v % 2 ^ (64 - p % 64) + 1) * 2 ^ (p % 64) := by ring
            _ ≤ 2 ^ (64 - p % 64) * 2 ^ (p % 64) := this
        have h2 : (2 : Nat) ^ (64 - p % 64) * 2 ^ (p % 64) = 2 ^ 64 := by
          rw [← Nat.pow_add]; congr 1; omega
        omega
      rw [Nat.mod_eq_of_lt hsum]
      omega
    · rcases Nat.lt_or_ge j (p / 64 + 2) with hj2 | hj2
      · -- j = p / 64 + 1 : the high fragment of `v`
        have hjeq : j = p / 64 + 1 := by omega
        subst hjeq
        have hl1 : (longs.set (p / 64)
            (longs.getD (p / 64) 0 ||| (v &&& (1 <<< (64 - p % 64)) - 1) <<< (p % 64) % 2 ^ 64)).getD
              (p / 64 + 1) 0 = longs.getD (p / 64 + 1) 0 :=
          getD_set_ne _ _ _ _ (by omega)
        rw [getD_set_self _ _ _ (by simpa using hj1), hl1, hinv (p / 64 + 1)]
        have hz : S / 2 ^ (64 * (p / 64 + 1)) % 2 ^ 64 = 0 := by
          apply digit_zero
          calc S < 2 ^ p := hS
            _ ≤ 2 ^ (64 * (p / 64 + 1)) := Nat.pow_le_pow_right (by omega) (by omega)
        rw [hz, hhigh, Nat.zero_or]
        have hstage : (S + v * 2 ^ p) / 2 ^ (64 * (p / 64 + 1))
            = v / 2 ^ (64 - p % 64) := by
          have hpow : (2 : Nat) ^ (64 * (p / 64 + 1)) = 2 ^ p * 2 ^ (64 - p % 64) := by
            rw [← Nat.pow_add]; congr 1; omega
          rw [hpow, ← Nat.div_div_eq_div_mul,
            Nat.add_mul_div_right _ _ (Nat.two_pow_pos p), Nat.div_eq_of_lt hS,
            Nat.zero_add]
        rw [hstage]
        symm
        apply Nat.mod_eq_of_lt
        calc v / 2 ^ (64 - p % 64) < 2 ^ (b - (64 - p % 64)) := by
              apply (Nat.div_lt_iff_lt_mul (Nat.two_pow_pos _)).mpr
              calc v < 2 ^ b := hv
                _ = 2 ^ (b - (64 - p % 64)) * 2 ^ (64 - p % 64) := by
                  rw [← Nat.pow_add]; congr 1; omega
          _ ≤ 2 ^ 64 := Nat.pow_le_pow_right (by omega) (by omega)
      · -- j ≥ p / 64 + 2 : untouched zero digits
        rw [getD_set_ne _ _ _ _ (by omega), getD_set_ne _ _ _ _ (by omega), hinv j]
        have htop : S + v * 2 ^ p < 2 ^ (64 * j) := by
          have h2 : v * 2 ^ p + 2 ^ p ≤ 2 ^ b * 2 ^ p := by
            have := (Nat.mul_le_mul_right (k := 2 ^ p) (by omega : v + 1 ≤ 2 ^ b))
            calc v * 2 ^ p + 2 ^ p = (v + 1) * 2 ^ p := by ring
              _ ≤ 2 ^ b * 2 ^ p := this
          have h3 : (2 : Nat) ^ b * 2 ^ p ≤ 2 ^ (64 * j) := by
            rw [← Nat.pow_add]
            exact Nat.pow_le_pow_right (by omega) (by omega)
          omega
        rw [digit_zero _ _ htop, digit_zero]
        calc S < 2 ^ p := hS
          _ ≤ 2 ^ (64 * j) := Nat.pow_le_pow_right (by omega) (by omega)

theorem packTightGo_spec (b : Nat) (hb1 : 1 ≤ b) (hb2 : b ≤ 64) :
    ∀ (vs P longs : List Nat),
      (∀ v ∈ P, v < 2 ^ b) → (∀ v ∈ vs, v < 2 ^ b) →
      (P.length + vs.length) * b ≤ longs.length * 64 →
      (∀ j, longs.getD j 0 = ofBase (2 ^ b) P / 2 ^ (64 * j) % 2 ^ 64) →
      ∀ j, (packTightGo b vs (P.length * b) longs).getD j 0
        = ofBase (2 ^ b) (P ++ vs) / 2 ^ (64 * j) % 2 ^ 64 := by
  intro vs
  induction vs with
  | nil =>
    intro P longs _ _ _ hinv j
    simpa using hinv j
  | cons v vs ih =>
    intro P longs hP hvs hcap hinv j
    have hv : v < 2 ^ b := hvs v (by simp)
    have hS : ofBase (2 ^ b) P < 2 ^ (P.length * b) := by
      calc ofBase (2 ^ b) P < (2 ^ b) ^ P.length := ofBase_lt _ _ hP
        _ = 2 ^ (b * P.length) := (Nat.pow_mul 2 b P.length).symm
        _ = 2 ^ (P.length * b) := by rw [Nat.mul_comm]
    have hcapw : P.length * b + b ≤ longs.length * 64 := by
      have h1 : (P.length + (v :: vs).length) * b
          = P.length * b + b + vs.length * b := by
        simp only [List.length_cons]
        ring
      omega
    have hstep := writeTight_spec b hb1 hb2 (ofBase (2 ^ b) P) v (P.length * b) longs
      hS hv hcapw hinv
    have hS' : ofBase (2 ^ b) P + v * 2 ^ (P.length * b) = ofBase (2 ^ b) (P ++ [v]) := by
      rw [ofBase_append]
      congr 2
      rw [← Nat.pow_mul, Nat.mul_comm]
    have hsteplen : (writeTight longs (P.length * b) b v).length = longs.length := by
      rw [writeTight]
      dsimp only
      split
      · simp
      · split <;> simp
    have hcap' : ((P ++ [v]).length + vs.length) * b
        ≤ (writeTight longs (P.length * b) b v).length * 64 := by
      rw [hsteplen]
      simp only [List.length_append, List.length_cons, List.length_nil, Nat.zero_add]
      have h1 : (P.length + (v :: vs).length) * b
          = (P.length + 1 + vs.length) * b := by
        simp only [List.length_cons]
        ring_nf
      omega
    have ihres := ih (P ++ [v]) (writeTight longs (P.length * b) b v)
      (by
        intro x hx
        rcases List.mem_append.mp hx with h | h
        · exact hP x h
        · simp at h; subst h; exact hv)
      (fun x hx => hvs x (by simp [hx])) hcap'
      (by
        intro j'
        rw [hstep j', hS'])
      j
    have hlen2 : (P ++ [v]).length * b = P.length * b + b := by
      simp only [List.length_append, List.length_cons, List.length_nil]
      ring
    rw [hlen2] at ihres
    rw [show packTightGo b (v :: vs) (P.length * b) longs
        = packTightGo b vs (P.length * b + b) (writeTight longs (P.length * b) b v) from rfl]
    simpa [List.append_assoc] using ihres

theorem PackLongArrayTight_length (V : List Nat) (b : Nat) (hb : b ≠ 0) :
    (PackLongArrayTight V b).length = (V.length * b + 63) / 64 := by
  rw [PackLongArrayTight, if_neg hb]
  exact (packTightGo_length b V 0 _).trans (List.length_replicate _ _)

theorem PackLongArrayTight_getD (b : Nat) (hb1 : 1 ≤ b) (hb2 : b ≤ 64) (V : List Nat)
    (hV : ∀ v ∈ V, v < 2 ^ b) (j : Nat) :
    (PackLongArrayTight V b).getD j 0 = ofBase (2 ^ b) V / 2 ^ (64 * j) % 2 ^ 64 := by
  rw [PackLongArrayTight, if_neg (by omega)]
  have hcap : V.length * b ≤ (V.length * b + 63) / 64 * 64 := by
    have hdm := Nat.div_add_mod (V.length * b + 63) 64
    have hm : (V.length * b + 63) % 64 < 64 := Nat.mod_lt _ (by omega)
    have hc : (V.length * b + 63) / 64 * 64 = 64 * ((V.length * b + 63) / 64) :=
      Nat.mul_comm _ _
    omega
  have h := packTightGo_spec b hb1 hb2 V []
    (List.replicate ((V.length * b + 63) / 64) 0)
    (by intro x hx; simp at hx) hV
    (by simp only [List.length_nil, List.length_replicate, Nat.zero_add]; exact hcap)
    (by intro j'; rw [getD_replicate]; simp [ofBase])
    j
  simpa using h

theorem UnpackLongArrayTight_PackLongArrayTight (b : Nat) (V : List Nat)
    (hb1 : 1 ≤ b) (hb2 : b ≤ 64) (hV : ∀ v ∈ V, v < 2 ^ b) :
    UnpackLongArrayTight (PackLongArrayTight V b) b V.length = V := by
  by_cases hV0 : V = []
  · subst hV0
    have hp : PackLongArrayTight [] b = [] := by
      rw [PackLongArrayTight, if_neg (by omega)]
      show List.replicate ((0 * b + 63) / 64) 0 = []
      norm_num
    rw [hp, UnpackLongArrayTight, if_pos (Or.inr rfl)]
    rfl
  · have hV1 : 0 < V.length := List.length_pos.mpr hV0
    have hlen := PackLongArrayTight_length V b (by omega)
    have hLpos : 0 < (V.length * b + 63) / 64 := by
      apply Nat.le_div_iff_mul_le (by omega) |>.mpr
      have : 1 ≤ V.length * b := Nat.mul_le_mul hV1 hb1
      omega
    have hne : PackLongArrayTight V b ≠ [] := by
      apply List.length_pos.mp
      rw [hlen]
      exact hLpos
    have hcap : V.length * b ≤ (V.length * b + 63) / 64 * 64 := by
      have hdm := Nat.div_add_mod (V.length * b + 63) 64
      have hm : (V.length * b + 63) % 64 < 64 := Nat.mod_lt _ (by omega)
      have hc : (V.length * b + 63) / 64 * 64 = 64 * ((V.length * b + 63) / 64) :=
        Nat.mul_comm _ _
      omega
    rw [UnpackLongArrayTight, if_neg (by push_neg; exact ⟨by omega, hne⟩)]
    apply List.ext_getElem (by simp)
    intro i h1 h2
    simp only [List.getElem_map, List.getElem_range]
    have hilen : i < V.length := by simpa using h2
    have hpb : i * b + b ≤ V.length * b := by
      have : (i + 1) * b ≤ V.length * b := Nat.mul_le_mul_right b (by omega)
      have h3 : (i + 1) * b = i * b + b := by ring
      omega
    have hdm : 64 * (i * b / 64) + i * b % 64 = i * b := Nat.div_add_mod (i * b) 64
    have hoff : i * b % 64 < 64 := Nat.mod_lt _ (by omega)
    have hguard : ¬ (PackLongArrayTight V b).length ≤ i * b / 64 := by
      rw [hlen]
      push_neg
      apply (Nat.div_lt_iff_lt_mul (by omega)).mpr
      omega
    rw [if_neg hguard]
    have hdig : (PackLongArrayTight V b).getD (i * b / 64) 0
        = ofBase (2 ^ b) V / 2 ^ (64 * (i * b / 64)) % 2 ^ 64 :=
      PackLongArrayTight_getD b hb1 hb2 V hV _
    have hvi : ofBase (2 ^ b) V / 2 ^ (i * b) % 2 ^ b = V[i] := by
      have h := ofBase_digit (2 ^ b) V i hV
      rw [show (2 : Nat) ^ (i * b) = ((2 : Nat) ^ b) ^ i from by
        rw [← Nat.pow_mul, Nat.mul_comm], h]
      simp [List.getD_eq_getElem?_getD, List.getElem?_eq_getElem hilen]
    by_cases hfit : b ≤ 64 - i * b % 64
    · rw [if_pos hfit, hdig]
      rw [Nat.one_shiftLeft, Nat.shiftRight_eq_div_pow, Nat.and_pow_two_sub_one_eq_mod]
      rw [mod64_div_mod _ _ _ (by omega), Nat.div_div_eq_div_mul, ← Nat.pow_add]
      rw [show 64 * (i * b / 64) + i * b % 64 = i * b from hdm]
      exact hvi
    · rw [if_neg hfit]
      have hguard2 : i * b / 64 + 1 < (PackLongArrayTight V b).length := by
        rw [hlen]
        apply Nat.lt_of_mul_lt_mul_left (a := 64)
        calc 64 * (i * b / 64 + 1) = 64 * (i * b / 64) + 64 := by ring
          _ < i * b + b := by omega
          _ ≤ V.length * b := hpb
          _ ≤ (V.length * b + 63) / 64 * 64 := hcap
          _ = 64 * ((V.length * b + 63) / 64) := Nat.mul_comm _ _
      rw [if_pos hguard2, hdig]
      have hdig2 : (PackLongArrayTight V b).getD (i * b / 64 + 1) 0
          = ofBase (2 ^ b) V / 2 ^ (64 * (i * b / 64 + 1)) % 2 ^ 64 :=
        PackLongArrayTight_getD b hb1 hb2 V hV _
      rw [hdig2]
      rw [Nat.one_shiftLeft, Nat.one_shiftLeft, Nat.shiftRight_eq_div_pow,
        Nat.and_pow_two_sub_one_eq_mod, Nat.and_pow_two_sub_one_eq_mod]
      -- low fragment: bits of the value that sit at the top of the first long
      rw [mod64_div_mod _ _ _ (by omega)]
      -- high fragment: reduce the second digit's masks
      rw [Nat.mod_mod_of_dvd _ (Nat.pow_dvd_pow 2 (by omega : b - (64 - i * b % 64) ≤ 64))]
      rw [Nat.div_div_eq_div_mul, ← Nat.pow_add,
        show 64 * (i * b / 64) + i * b % 64 = i * b from hdm]
      rw [show 64 * (i * b / 64 + 1) = i * b + (64 - i * b % 64) from by omega,
        Nat.pow_add, ← Nat.div_div_eq_div_mul]
      rw [Nat.shiftLeft_eq]
      have hv1lt : ofBase (2 ^ b) V / 2 ^ (i * b) % 2 ^ (64 - i * b % 64)
          < 2 ^ (64 - i * b % 64) := Nat.mod_lt _ (Nat.two_pow_pos _)
      have hor := Nat.mul_add_lt_is_or hv1lt
        (ofBase (2 ^ b) V / 2 ^ (i * b) / 2 ^ (64 - i * b % 64) % 2 ^ (b - (64 - i * b % 64)))
      have hmc2 : (2 : Nat) ^ (64 - i * b % 64)
            * (ofBase (2 ^ b) V / 2 ^ (i * b) / 2 ^ (64 - i * b % 64)
                % 2 ^ (b - (64 - i * b % 64)))
          = ofBase (2 ^ b) V / 2 ^ (i * b) / 2 ^ (64 - i * b % 64)
              % 2 ^ (b - (64 - i * b % 64)) * 2 ^ (64 - i * b % 64) :=
        Nat.mul_comm _ _
      rw [hmc2] at hor
      have hoc : ofBase (2 ^ b) V / 2 ^ (i * b) % 2 ^ (64 - i * b % 64)
            ||| ofBase (2 ^ b) V / 2 ^ (i * b) / 2 ^ (64 - i * b % 64)
                % 2 ^ (b - (64 - i * b % 64)) * 2 ^ (64 - i * b % 64)
          = ofBase (2 ^ b) V / 2 ^ (i * b) / 2 ^ (64 - i * b % 64)
                % 2 ^ (b - (64 - i * b % 64)) * 2 ^ (64 - i * b % 64)
            ||| ofBase (2 ^ b) V / 2 ^ (i * b) % 2 ^ (64 - i * b % 64) :=
        Nat.or_comm _ _
      have hsum := mod_split (ofBase (2 ^ b) V / 2 ^ (i * b)) (64 - i * b % 64)
        (b - (64 - i * b % 64))
      rw [show 64 - i * b % 64 + (b - (64 - i * b % 64)) = b from by omega] at hsum
      rw [hvi] at hsum
      omega

/-- C2: for every bit width `b ∈ [1, 31]` and every sequence `V` of
non-negative integers below `2 ^ b`, unpacking what either packer packed
returns `V`: `UnpackLongArray (PackLongArray V b) b |V| = V` and
`UnpackLongArrayTight (PackLongArrayTight V b) b |V| = V`. -/
theorem claim_C2_pack_roundtrip (b : Nat) (V : List Nat)
    (hb1 : 1 ≤ b) (hb2 : b ≤ 31) (hV : ∀ v ∈ V, v < 2 ^ b) :
    UnpackLongArray (PackLongArray V b) b V.length = V ∧
    UnpackLongArrayTight (PackLongArrayTight V b) b V.length = V :=
  ⟨UnpackLongArray_PackLongArray b V hb1 (by omega) hV,
   UnpackLongArrayTight_PackLongArrayTight b V hb1 (by omega) hV⟩

/-- Witness for C2 at `b = 5`, `V = [5, 0, 7, 31]`. -/
theorem claim_C2_pack_roundtrip_witness :
    UnpackLongArray (PackLongArray [5, 0, 7, 31] 5) 5 4 = [5, 0, 7, 31] ∧
    UnpackLongArrayTight (PackLongArrayTight [5, 0, 7, 31] 5) 5 4 = [5, 0, 7, 31] :=
  claim_C2_pack_roundtrip 5 [5, 0, 7, 31] (by decide) (by decide) (by decide)

theorem decodeVarIntGo_success (data : List Nat) (k : Nat) (hk5 : k < 5)
    (hklen : k < data.length) (hclear : data.getD k 0 &&& 128 = 0) :
    ∀ (len : Nat), len ≤ k → (∀ i, len ≤ i → i < k → data.getD i 0 &&& 128 ≠ 0) →
    decodeVarIntGo data (varIntValue data len) len
      = some (varIntValue data (k + 1), k + 1) := by
  have main : ∀ (d len : Nat), k - len = d → len ≤ k →
      (∀ i, len ≤ i → i < k → data.getD i 0 &&& 128 ≠ 0) →
      decodeVarIntGo data (varIntValue data len) len
        = some (varIntValue data (k + 1), k + 1) := by
    intro d
    induction d with
    | zero =>
      intro len hd hle _
      have hlen : len = k := by omega
      subst hlen
      rw [decodeVarIntGo, dif_neg (by omega)]
      dsimp only
      rw [if_neg (by omega), if_pos hclear]
      rfl
    | succ d ihd =>
      intro len hd hle hset
      have hlk : len < k := by omega
      rw [decodeVarIntGo, dif_neg (by omega)]
      dsimp only
      rw [if_neg (by omega), if_neg (hset len (by omega) hlk)]
      have hacc : varIntValue data len ||| ((data.getD len 0 &&& 127) <<< (len * 7))
          = varIntValue data (len + 1) := rfl
      rw [hacc]
      exact ihd (len + 1) (by omega) (by omega) (fun i h1 h2 => hset i (by omega) h2)
  exact fun len hle hset => main (k - len) len rfl hle hset

theorem decodeVarIntGo_none (data : List Nat) :
    ∀ (d len : Nat) (value : Nat), 5 - len = d → len ≤ 5 →
      (∀ i, len ≤ i → i < min 5 data.length → data.getD i 0 &&& 128 ≠ 0) →
      decodeVarIntGo data value len = none := by
  intro d
  induction d with
  | zero =>
    intro len value hd hle _
    have hlen : len = 5 := by omega
    subst hlen
    by_cases hdata : data.length ≤ 5
    · rw [decodeVarIntGo, dif_pos hdata]
    · rw [decodeVarIntGo, dif_neg hdata]
      dsimp only
      rw [if_pos (by omega)]
  | succ d ihd =>
    intro len value hd hle hset
    by_cases hdata : data.length ≤ len
    · rw [decodeVarIntGo, dif_pos hdata]
    · rw [decodeVarIntGo, dif_neg hdata]
      dsimp only
      rw [if_neg (by omega), if_neg (hset len (by omega) (by omega))]
      exact ihd (len + 1) _ (by omega) (by omega) (fun i h1 h2 => hset i (by omega) h2)

/-- C9: `DecodeVarInt` fails exactly when every byte among the first
`min 5 |data|` carries the continuation bit (covering both "more than 5
bytes" and "input exhausted"); otherwise, with the first continuation-free
byte at index `k`, it returns the accumulated value and `k + 1` bytes
consumed. -/
theorem claim_C9_decode_varint (data : List Nat) :
    (DecodeVarInt data = none
      ↔ ∀ i, i < min 5 data.length → data.getD i 0 &&& 128 ≠ 0)
    ∧ (∀ k, k < 5 → k < data.length → data.getD k 0 &&& 128 = 0 →
        (∀ i, i < k → data.getD i 0 &&& 128 ≠ 0) →
        DecodeVarInt data = some (varIntValue data (k + 1), k + 1)) := by
  constructor
  · constructor
    · intro hnone
      by_contra hex
      push_neg at hex
      obtain ⟨k, hk, hkc⟩ := hex
      have hP : ∃ j, j < min 5 data.length ∧ data.getD j 0 &&& 128 = 0 := ⟨k, hk, hkc⟩
      have hk0 := Nat.find_spec hP
      have hmin : ∀ i, i < Nat.find hP →
          ¬(i < min 5 data.length ∧ data.getD i 0 &&& 128 = 0) :=
        fun i hi => Nat.find_min hP hi
      have hb1 : Nat.find hP < 5 := by have := hk0.1; omega
      have hb2 : Nat.find hP < data.length := by have := hk0.1; omega
      have hsucc := decodeVarIntGo_success data (Nat.find hP) hb1 hb2 hk0.2 0 (by omega)
        (fun i h1 h2 => by
          by_contra hc
          exact hmin i h2 ⟨by omega, hc⟩)
      rw [DecodeVarInt] at hnone
      rw [show varIntValue data 0 = 0 from rfl] at hsucc
      rw [hsucc] at hnone
      exact Option.noConfusion hnone
    · intro hall
      rw [DecodeVarInt]
      exact decodeVarIntGo_none data 5 0 0 rfl (by omega) (fun i _ h2 => hall i h2)
  · intro k hk5 hklen hclear hbelow
    have h := decodeVarIntGo_success data k hk5 hklen hclear 0 (by omega)
      (fun i _ h2 => hbelow i h2)
    rw [DecodeVarInt]
    rw [show varIntValue data 0 = 0 from rfl] at h
    exact h

/-- Witness for C9: `[0x80, 0x03]` decodes to value 384 in 2 bytes. -/
theorem claim_C9_decode_varint_witness :
    DecodeVarInt [128, 3] = some (384, 2) :=
  ((claim_C9_decode_varint [128, 3]).2 1 (by decide) (by decide) (by decide)
    (by
      intro i hi
      have h0 : i = 0 := by omega
      subst h0
      decide)).trans (by decide)

theorem getInt_putInt {α : Type} (m : List (Int × α)) (k : Int) (v : α) :
    getInt (putInt m k v) k = some v := by
  rw [getInt, putInt, List.find?_append]
  have h1 : (m.filter fun p => !(p.1 == k)).find? (fun p => p.1 == k) = none := by
    rw [List.find?_eq_none]
    intro x hx
    rcases List.mem_filter.mp hx with ⟨_, hk⟩
    simpa using hk
  rw [h1]
  simp

theorem getInt_putInt_ne {α : Type} (m : List (Int × α)) (k k' : Int) (v : α)
    (h : k ≠ k') :
    getInt (putInt m k v) k' = getInt m k' := by
  rw [getInt, putInt, List.find?_append]
  have h2 : List.find? (fun p => p.1 == k') [(k, v)] = none := by
    simp [h]
  rw [h2, Option.or_none, getInt]
  congr 1
  induction m with
  | nil => rfl
  | cons p m ih =>
    by_cases hp : p.1 == k'
    · have hkk : ¬(p.1 == k) := by
        have h3 : p.1 = k' := by simpa using hp
        simp [h3]
        omega
      simp [List.filter_cons, hkk, List.find?_cons_of_pos, hp]
    · by_cases hpk : p.1 == k
      · simp [List.filter_cons, hpk, List.find?_cons_of_neg, hp, ih]
      · simp [List.filter_cons, hpk, List.find?_cons_of_neg, hp, ih]

theorem mem_putInt {α : Type} (m : List (Int × α)) (k : Int) (v : α)
    (p : Int × α) (hp : p ∈ putInt m k v) : p = (k, v) ∨ p ∈ m := by
  rcases List.mem_append.mp hp with h | h
  · exact Or.inr (List.mem_filter.mp h).1
  · simp at h
    exact Or.inl (by cases p; simp at h; simp [h])

theorem mem_delInt {α : Type} (m : List (Int × α)) (k : Int)
    (p : Int × α) (hp : p ∈ delInt m k) : p ∈ m :=
  (List.mem_filter.mp hp).1

/-- C7: out-of-range `SetBlock`/`SetBlockEntity` are no-ops; an in-range
`SetBlockEntity` stores the entry with `X, Y, Z` equal to the storage
coordinates; both operations and the constructor preserve the invariant that
the block and block-entity maps hold only in-range, coordinate-consistent
entries. -/
theorem claim_C7_bounds_invariants (s : SchematicImpl) (x y z w h l : Int)
    (f : String) (b : Option BlockState) (be : BlockEntity) (obe : Option BlockEntity) :
    (¬ s.inRange x y z →
      s.SetBlock x y z b = s ∧ s.SetBlockEntity x y z obe = s)
    ∧ (s.inRange x y z →
        getInt (s.SetBlockEntity x y z (some be)).blockEntities (s.index x y z)
          = some { be with X := x, Y := y, Z := z })
    ∧ (SchemWF s → SchemWF (s.SetBlock x y z b)
        ∧ SchemWF (s.SetBlockEntity x y z obe))
    ∧ SchemWF (New w h l f) := by
  refine ⟨?_, ?_, ?_, ?_⟩
  · intro hout
    constructor
    · unfold SchematicImpl.SetBlock
      rw [if_neg hout]
    · unfold SchematicImpl.SetBlockEntity
      rw [if_neg hout]
  · intro hin
    unfold SchematicImpl.SetBlockEntity
    rw [if_pos hin]
    exact getInt_putInt _ _ _
  · intro hwf
    constructor
    · by_cases hin : s.inRange x y z
      · match b with
        | none =>
          unfold SchematicImpl.SetBlock
          rw [if_pos hin]
          refine ⟨?_, ?_⟩
          · intro p hp
            exact hwf.1 p (mem_delInt _ _ _ hp)
          · intro p hp
            exact hwf.2 p hp
        | some bs =>
          unfold SchematicImpl.SetBlock
          rw [if_pos hin]
          refine ⟨?_, ?_⟩
          · intro p hp
            rcases mem_putInt _ _ _ _ hp with h | h
            · subst h
              exact ⟨x, y, z, hin, rfl⟩
            · exact hwf.1 p h
          · intro p hp
            exact hwf.2 p hp
      · unfold SchematicImpl.SetBlock
        rw [if_neg hin]
        exact hwf
    · by_cases hin : s.inRange x y z
      · match obe with
        | none =>
          unfold SchematicImpl.SetBlockEntity
          rw [if_pos hin]
          refine ⟨fun p hp => hwf.1 p hp, fun p hp => hwf.2 p (mem_delInt _ _ _ hp)⟩
        | some be' =>
          unfold SchematicImpl.SetBlockEntity
          rw [if_pos hin]
          refine ⟨fun p hp => hwf.1 p hp, ?_⟩
          intro p hp
          rcases mem_putInt _ _ _ _ hp with h | h
          · subst h
            exact ⟨hin, rfl⟩
          · exact hwf.2 p h
      · unfold SchematicImpl.SetBlockEntity
        rw [if_neg hin]
        exact hwf
  · exact ⟨fun p hp => absurd hp (List.not_mem_nil p),
      fun p hp => absurd hp (List.not_mem_nil p)⟩

/-- Witness for C7: a 1×1×1 schematic ignores an out-of-range write and
stores a block entity with rewritten coordinates. -/
theorem claim_C7_bounds_invariants_witness :
    ((New 1 1 1 "t").SetBlock 2 0 0 (some { name := "minecraft:stone", properties := [] })
        = New 1 1 1 "t")
    ∧ getInt ((New 1 1 1 "t").SetBlockEntity 0 0 0
          (some { ID := "minecraft:chest", X := 9, Y := 9, Z := 9, Data := [] })).blockEntities
        ((New 1 1 1 "t").index 0 0 0)
      = some { ID := "minecraft:chest", X := 0, Y := 0, Z := 0, Data := [] } :=
  ⟨((claim_C7_bounds_invariants (New 1 1 1 "t") 2 0 0 1 1 1 "t"
      (some { name := "minecraft:stone", properties := [] })
      { ID := "minecraft:chest", X := 9, Y := 9, Z := 9, Data := [] } none).1
      (by decide)).1,
   (claim_C7_bounds_invariants (New 1 1 1 "t") 0 0 0 1 1 1 "t" none
      { ID := "minecraft:chest", X := 9, Y := 9, Z := 9, Data := [] } none).2.1
      (by decide)⟩

/-- C4 (counter-evidence): `SetBlock` stores any non-nil state without an air
check, so a programmatic `SetBlock` of `minecraft:air` puts an air-named
entry into the block map, although `isAirBlock` classifies it as air. -/
theorem claim_C4_setblock_stores_air :
    getInt ((New 1 1 1 "test").SetBlock 0 0 0
        (some { name := "minecraft:air", properties := [] })).blocks
      ((New 1 1 1 "test").index 0 0 0)
      = some { name := "minecraft:air", properties := [] }
    ∧ isAirBlock "minecraft:air" = true := by
  constructor
  · have hin : (New 1 1 1 "test").inRange 0 0 0 := by decide
    unfold SchematicImpl.SetBlock
    rw [if_pos hin]
    exact getInt_putInt _ _ _
  · rfl

/-- C5 (counter-evidence): on a root with integer `Version` 6 or 7 and a
`Regions` child, the detector returns the id `"litematica"` — not
`"litematica_v6"`/`"litematica_v7"` — and `"litematica"` is not a key of the
reader registry, while other `Version` values do fail. -/
theorem claim_C5_detector_returns_unregistered_id :
    detectGzipRoot [("Version", NbtTag.intTag 6), ("Regions", NbtTag.compTag [])]
      = Except.ok "litematica"
    ∧ detectGzipRoot [("Version", NbtTag.intTag 7), ("Regions", NbtTag.compTag [])]
      = Except.ok "litematica"
    ∧ detectGzipRoot [("Version", NbtTag.intTag 5), ("Regions", NbtTag.compTag [])]
      = Except.error "unsupported Litematica version"
    ∧ ¬ "litematica" ∈ formatReaderKeys
    ∧ "litematica_v6" ∈ formatReaderKeys ∧ "litematica_v7" ∈ formatReaderKeys :=
  ⟨rfl, rfl, rfl, by decide, by decide, by decide⟩

/-- C8: a read cell whose `"<id>:<meta>"` key misses the legacy table is
decoded through the `"<id>:0"` fallback (air when that also misses), and a
written cell whose state is empty or whose canonical string misses the
reverse table emits the byte pair `(0, 0)`. -/
theorem claim_C8_mcedit_fallbacks (legacy : List (String × String))
    (reverse : List (String × (Nat × Nat))) (id meta : Nat) (st : BlockState) :
    (getStr legacy (legacyKey id meta) = none →
      mceditReadCell legacy id meta = (getStr legacy (legacyKey id 0)).map ParseBlockState)
    ∧ mceditWriteCell reverse none = (0, 0)
    ∧ (getStr reverse st.String = none → mceditWriteCell reverse (some st) = (0, 0)) := by
  refine ⟨?_, rfl, ?_⟩
  · intro hmiss
    rw [mceditReadCell, hmiss]
    cases getStr legacy (legacyKey id 0) <;> rfl
  · intro hmiss
    rw [mceditWriteCell, hmiss]

/-- Witness for C8 with a one-entry table: `3:5` misses, `3:0` hits. -/
theorem claim_C8_mcedit_fallbacks_witness :
    mceditReadCell [("3:0", "minecraft:dirt")] 3 5
      = (getStr [("3:0", "minecraft:dirt")] (legacyKey 3 0)).map ParseBlockState
    ∧ mceditWriteCell [("minecraft:dirt", (3, 0))]
        (some { name := "minecraft:oak_log", properties := [] }) = (0, 0) :=
  ⟨(claim_C8_mcedit_fallbacks [("3:0", "minecraft:dirt")] [("minecraft:dirt", (3, 0))]
      3 5 { name := "minecraft:oak_log", properties := [] }).1 (by decide),
   (claim_C8_mcedit_fallbacks [("3:0", "minecraft:dirt")] [("minecraft:dirt", (3, 0))]
      3 5 { name := "minecraft:oak_log", properties := [] }).2.2 (by decide)⟩

/-- C10: `Entities()` and `Metadata()` return freshly allocated containers
holding a copy of the current contents; mutating a returned container does
not change the schematic's own, and later `AddEntity`/`SetMetadata` calls do
not change a previously returned container. -/
theorem claim_C10_fresh_containers (st : GoContainers) (hwf : ContainersWF st)
    (e : Entity) (k : String) (v : NbtTag)
    (l : List Entity) (m : List (String × NbtTag)) :
    heapGetEnt (entitiesOp st).1 (entitiesOp st).2 = heapGetEnt st st.entHandle
    ∧ heapGetMeta (metadataOp st).1 (metadataOp st).2 = heapGetMeta st st.metaHandle
    ∧ (entitiesOp st).2 ≠ st.entHandle
    ∧ (metadataOp st).2 ≠ st.metaHandle
    ∧ heapGetEnt (writeEnt (entitiesOp st).1 (entitiesOp st).2 l) st.entHandle
      = heapGetEnt st st.entHandle
    ∧ heapGetMeta (writeMeta (metadataOp st).1 (metadataOp st).2 m) st.metaHandle
      = heapGetMeta st st.metaHandle
    ∧ heapGetEnt (addEntityOp (entitiesOp st).1 e) (entitiesOp st).2
      = heapGetEnt (entitiesOp st).1 (entitiesOp st).2
    ∧ heapGetMeta (setMetadataOp (metadataOp st).1 k v) (metadataOp st).2
      = heapGetMeta (metadataOp st).1 (metadataOp st).2 := by
  obtain ⟨hent, hmeta⟩ := hwf
  have hgid : ∀ (hp : List (List Entity)) (j : Nat) (x : List Entity), j < hp.length →
      (hp ++ [x]).getD j [] = hp.getD j [] := by
    intro hp j x hj
    simp [List.getD_eq_getElem?_getD, List.getElem?_append_left hj]
  have hgid2 : ∀ (hp : List (List (String × NbtTag))) (j : Nat)
      (x : List (String × NbtTag)), j < hp.length →
      (hp ++ [x]).getD j [] = hp.getD j [] := by
    intro hp j x hj
    simp [List.getD_eq_getElem?_getD, List.getElem?_append_left hj]
  have hlast : ∀ (hp : List (List Entity)) (x : List Entity),
      (hp ++ [x]).getD hp.length [] = x := by
    intro hp x
    simp [List.getD_eq_getElem?_getD, List.getElem?_append_right (Nat.le_refl _)]
  have hlast2 : ∀ (hp : List (List (String × NbtTag))) (x : List (String × NbtTag)),
      (hp ++ [x]).getD hp.length [] = x := by
    intro hp x
    simp [List.getD_eq_getElem?_getD, List.getElem?_append_right (Nat.le_refl _)]
  have hsetne : ∀ (hp : List (List Entity)) (i j : Nat) (x : List Entity), i ≠ j →
      (hp.set i x).getD j [] = hp.getD j [] := by
    intro hp i j x hij
    simp [List.getD_eq_getElem?_getD, List.getElem?_set_ne hij]
  have hsetne2 : ∀ (hp : List (List (String × NbtTag))) (i j : Nat)
      (x : List (String × NbtTag)), i ≠ j →
      (hp.set i x).getD j [] = hp.getD j [] := by
    intro hp i j x hij
    simp [List.getD_eq_getElem?_getD, List.getElem?_set_ne hij]
  have he1 : (entitiesOp st).1.entHandle = st.entHandle := rfl
  have he2 : (entitiesOp st).2 = st.entHeap.length := rfl
  have hm1 : (metadataOp st).1.metaHandle = st.metaHandle := rfl
  have hm2 : (metadataOp st).2 = st.metaHeap.length := rfl
  refine ⟨?_, ?_, by omega, by omega, ?_, ?_, ?_, ?_⟩
  · exact hlast st.entHeap _
  · exact hlast2 st.metaHeap _
  · -- writing through the fresh handle leaves the schematic's slot intact
    rw [writeEnt]
    show ((st.entHeap ++ [heapGetEnt st st.entHandle]).set st.entHeap.length l).getD
        st.entHandle [] = heapGetEnt st st.entHandle
    rw [hsetne _ _ _ _ (by omega)]
    exact hgid st.entHeap _ _ hent
  · rw [writeMeta]
    show ((st.metaHeap ++ [heapGetMeta st st.metaHandle]).set st.metaHeap.length m).getD
        st.metaHandle [] = heapGetMeta st st.metaHandle
    rw [hsetne2 _ _ _ _ (by omega)]
    exact hgid2 st.metaHeap _ _ hmeta
  · -- AddEntity writes through the schematic's handle, not the returned one
    rw [addEntityOp]
    exact hsetne _ _ _ _ (by omega)
  · rw [setMetadataOp]
    exact hsetne2 _ _ _ _ (by omega)

/-- Witness for C10 on a two-slot heap. -/
theorem claim_C10_fresh_containers_witness :
    heapGetEnt (entitiesOp ⟨[[]], 0, [[]], 0⟩).1 (entitiesOp ⟨[[]], 0, [[]], 0⟩).2
      = heapGetEnt ⟨[[]], 0, [[]], 0⟩ 0
    ∧ (entitiesOp (⟨[[]], 0, [[]], 0⟩ : GoContainers)).2 ≠ 0 := by
  have h := claim_C10_fresh_containers ⟨[[]], 0, [[]], 0⟩ (by constructor <;> decide)
    { ID := "", Pos := [], Rotation := [], Motion := [], UUID := none, Data := [] }
    "k" (NbtTag.intTag 0) [] []
  exact ⟨h.1, h.2.2.1⟩

theorem bitsLoopGo_le : ∀ (fuel n : Nat), n ≤ fuel →
    ∀ k, bitsLoopGo fuel n ≤ k ↔ n < 2 ^ k := by
  intro fuel
  induction fuel with
  | zero =>
    intro n hn k
    have h0 : n = 0 := by omega
    subst h0
    simp [bitsLoopGo, Nat.pos_pow_of_pos]
  | succ fuel ih =>
    intro n hn k
    match n with
    | 0 => simp [bitsLoopGo, Nat.pos_pow_of_pos]
    | m + 1 =>
      show bitsLoopGo fuel ((m + 1) / 2) + 1 ≤ k ↔ m + 1 < 2 ^ k
      match k with
      | 0 =>
        constructor
        · omega
        · intro h
          have : (2 : Nat) ^ 0 = 1 := rfl
          omega
      | k + 1 =>
        rw [Nat.succ_le_succ_iff, ih ((m + 1) / 2) (by omega) k, Nat.pow_succ]
        exact Nat.div_lt_iff_lt_mul (by omega)

theorem bitsLoop_le (n : Nat) : ∀ k, bitsLoop n ≤ k ↔ n < 2 ^ k :=
  bitsLoopGo_le n n (Nat.le_refl n)

theorem bitsLoop_pred_eq_clog (n : Nat) (hn : 1 ≤ n) :
    bitsLoop (n - 1) = Nat.clog 2 n := by
  have hiff : ∀ k, bitsLoop (n - 1) ≤ k ↔ Nat.clog 2 n ≤ k := by
    intro k
    rw [bitsLoop_le, ← Nat.le_pow_iff_clog_le (by omega : 1 < 2)]
    have hp : 0 < 2 ^ k := Nat.two_pow_pos k
    omega
  have h1 := (hiff (Nat.clog 2 n)).mpr (Nat.le_refl _)
  have h2 := (hiff (bitsLoop (n - 1))).mp (Nat.le_refl _)
  omega

theorem UnpackLongArray_length (longs : List Nat) (b count : Nat) :
    (UnpackLongArray longs b count).length = count := by
  rw [UnpackLongArray]
  split <;> simp

/-- C6: an Axiom chunk encodes exactly 4096 cells: the builder starts with
4096 zero cells and `set` writes the cell at local index
`localY*256 + localZ*16 + localX`; `toNBT` packs the cells with the
block-aligned packer at `bitsPerBlock`, the reader unpacks exactly 4096
values at `bitsPerBlock` and its index decomposition inverts the writer's
index; and `bitsPerBlock n = max 4 ⌈log₂ n⌉` for every palette size
`n ≥ 1`. -/
theorem claim_C6_axiom_chunk_layout (cb : ChunkBuilder) (x y z : Int)
    (lx ly lz : Nat) (b : Option BlockState) (c : ChunkNBT) (n : Nat) :
    newChunkBuilder.data.length = 4096
    ∧ (cb.set lx ly lz b).data = (cb.paletteIndex b).1.data.set
        (ly * 256 + lz * 16 + lx) (cb.paletteIndex b).2
    ∧ (cb.set lx ly lz b).data.length = (cb.paletteIndex b).1.data.length
    ∧ (cb.toNBT x y z).blockStates.data
        = PackLongArray cb.data (bitsPerBlock cb.entries.length)
    ∧ axiomChunkValues c
        = UnpackLongArray c.blockStates.data (bitsPerBlock c.blockStates.palette.length) 4096
    ∧ (axiomChunkValues c).length = 4096
    ∧ (lx < 16 → ly < 16 → lz < 16 →
        (ly * 256 + lz * 16 + lx) / 256 = ly
        ∧ (ly * 256 + lz * 16 + lx) % 256 / 16 = lz
        ∧ (ly * 256 + lz * 16 + lx) % 256 % 16 = lx)
    ∧ (1 ≤ n → bitsPerBlock n = max 4 (Nat.clog 2 n)) := by
  refine ⟨?_, rfl, by simp [ChunkBuilder.set], rfl,
    rfl, UnpackLongArray_length _ _ _, ?_, ?_⟩
  · show (List.replicate 4096 (0 : Nat)).length = 4096
    rw [List.length_replicate]
  · intro h1 h2 h3
    omega
  · intro hn
    rw [bitsPerBlock, if_neg (by omega)]
    rw [show bitsLoop (n - 1) = Nat.clog 2 n from bitsLoop_pred_eq_clog n hn]
    dsimp only
    rcases Nat.lt_or_ge (Nat.clog 2 n) 4 with h | h
    · rw [if_pos h]
      omega
    · rw [if_neg (by omega)]
      omega

/-- Witness for C6 at a palette of 17 entries and local cell (3, 1, 2). -/
theorem claim_C6_axiom_chunk_layout_witness :
    ((1 * 256 + 2 * 16 + 3) / 256 = 1
      ∧ (1 * 256 + 2 * 16 + 3) % 256 / 16 = 2
      ∧ (1 * 256 + 2 * 16 + 3) % 256 % 16 = 3)
    ∧ bitsPerBlock 17 = max 4 (Nat.clog 2 17) :=
  ⟨(claim_C6_axiom_chunk_layout newChunkBuilder 0 0 0 3 1 2 none
      ⟨0, 0, 0, ⟨[], []⟩⟩ 17).2.2.2.2.2.2.1 (by decide) (by decide) (by decide),
   (claim_C6_axiom_chunk_layout newChunkBuilder 0 0 0 3 1 2 none
      ⟨0, 0, 0, ⟨[], []⟩⟩ 17).2.2.2.2.2.2.2 (by decide)⟩

theorem foldl_min_int (xs : List Int) : ∀ (a : Int),
    xs.foldl min a = xs.min?.elim a (fun m => min a m) := by
  induction xs with
  | nil => intro a; rfl
  | cons x xs ih =>
    intro a
    rw [List.foldl_cons, ih (min a x), List.min?_cons', ih x]
    cases hm : xs.min? with
    | none => simp
    | some m =>
      simp only [Option.elim]
      omega

theorem foldl_max_int (xs : List Int) : ∀ (a : Int),
    xs.foldl max a = xs.max?.elim a (fun m => max a m) := by
  induction xs with
  | nil => intro a; rfl
  | cons x xs ih =>
    intro a
    rw [List.foldl_cons, ih (max a x), List.max?_cons', ih x]
    cases hm : xs.max? with
    | none => simp
    | some m =>
      simp only [Option.elim]
      omega

theorem foldl_min_from (xs : List Int) (init m : Int) (hm : xs.min? = some m)
    (hb : m ≤ init) : xs.foldl min init = m := by
  rw [foldl_min_int, hm]
  simp only [Option.elim]
  omega

theorem foldl_max_from (xs : List Int) (init m : Int) (hm : xs.max? = some m)
    (hb : init ≤ m) : xs.foldl max init = m := by
  rw [foldl_max_int, hm]
  simp only [Option.elim]
  omega

theorem SetBlock_frame (s : SchematicImpl) (x y z : Int) (b : Option BlockState) :
    (s.SetBlock x y z b).width = s.width ∧ (s.SetBlock x y z b).height = s.height
    ∧ (s.SetBlock x y z b).length = s.length
    ∧ (s.SetBlock x y z b).offsetX = s.offsetX
    ∧ (s.SetBlock x y z b).offsetY = s.offsetY
    ∧ (s.SetBlock x y z b).offsetZ = s.offsetZ := by
  unfold SchematicImpl.SetBlock
  split
  · match b with
    | none => exact ⟨rfl, rfl, rfl, rfl, rfl, rfl⟩
    | some bb => exact ⟨rfl, rfl, rfl, rfl, rfl, rfl⟩
  · exact ⟨rfl, rfl, rfl, rfl, rfl, rfl⟩

theorem foldl_SetBlock_frame (minX minY minZ : Int)
    (l : List (Nat × Nat × Nat × BlockState)) : ∀ (s : SchematicImpl),
    (l.foldl (fun s c =>
        s.SetBlock ((c.1 : Int) - minX) ((c.2.1 : Int) - minY) ((c.2.2.1 : Int) - minZ)
          (some c.2.2.2)) s).width = s.width
    ∧ (l.foldl (fun s c =>
        s.SetBlock ((c.1 : Int) - minX) ((c.2.1 : Int) - minY) ((c.2.2.1 : Int) - minZ)
          (some c.2.2.2)) s).height = s.height
    ∧ (l.foldl (fun s c =>
        s.SetBlock ((c.1 : Int) - minX) ((c.2.1 : Int) - minY) ((c.2.2.1 : Int) - minZ)
          (some c.2.2.2)) s).length = s.length
    ∧ (l.foldl (fun s c =>
        s.SetBlock ((c.1 : Int) - minX) ((c.2.1 : Int) - minY) ((c.2.2.1 : Int) - minZ)
          (some c.2.2.2)) s).offsetX = s.offsetX
    ∧ (l.foldl (fun s c =>
        s.SetBlock ((c.1 : Int) - minX) ((c.2.1 : Int) - minY) ((c.2.2.1 : Int) - minZ)
          (some c.2.2.2)) s).offsetY = s.offsetY
    ∧ (l.foldl (fun s c =>
        s.SetBlock ((c.1 : Int) - minX) ((c.2.1 : Int) - minY) ((c.2.2.1 : Int) - minZ)
          (some c.2.2.2)) s).offsetZ = s.offsetZ := by
  induction l with
  | nil => intro s; exact ⟨rfl, rfl, rfl, rfl, rfl, rfl⟩
  | cons c l ih =>
    intro s
    rw [List.foldl_cons]
    obtain ⟨h1, h2, h3, h4, h5, h6⟩ :=
      ih (s.SetBlock ((c.1 : Int) - minX) ((c.2.1 : Int) - minY)
        ((c.2.2.1 : Int) - minZ) (some c.2.2.2))
    obtain ⟨g1, g2, g3, g4, g5, g6⟩ := SetBlock_frame s ((c.1 : Int) - minX)
      ((c.2.1 : Int) - minY) ((c.2.2.1 : Int) - minZ) (some c.2.2.2)
    exact ⟨h1.trans g1, h2.trans g2, h3.trans g3, h4.trans g4, h5.trans g5, h6.trans g6⟩

theorem readV6Region_fields (r : RegionV6) (dv : Int) :
    (readV6Region r dv).width
      = (if (litCells r).isEmpty then (r.sizeX.natAbs : Int) else litMaxX r - litMinX r + 1)
    ∧ (readV6Region r dv).height
      = (if (litCells r).isEmpty then (r.sizeY.natAbs : Int) else litMaxY r - litMinY r + 1)
    ∧ (readV6Region r dv).length
      = (if (litCells r).isEmpty then (r.sizeZ.natAbs : Int) else litMaxZ r - litMinZ r + 1)
    ∧ (readV6Region r dv).offsetX
      = getOrigin r.posX r.sizeX + (if (litCells r).isEmpty then 0 else litMinX r)
    ∧ (readV6Region r dv).offsetY
      = getOrigin r.posY r.sizeY + (if (litCells r).isEmpty then 0 else litMinY r)
    ∧ (readV6Region r dv).offsetZ
      = getOrigin r.posZ r.sizeZ + (if (litCells r).isEmpty then 0 else litMinZ r) := by
  unfold readV6Region
  obtain ⟨h1, h2, h3, h4, h5, h6⟩ := foldl_SetBlock_frame
    (if (litCells r).isEmpty then 0 else litMinX r)
    (if (litCells r).isEmpty then 0 else litMinY r)
    (if (litCells r).isEmpty then 0 else litMinZ r)
    (litCells r)
    ((New (if (litCells r).isEmpty then (r.sizeX.natAbs : Int) else litMaxX r - litMinX r + 1)
        (if (litCells r).isEmpty then (r.sizeY.natAbs : Int) else litMaxY r - litMinY r + 1)
        (if (litCells r).isEmpty then (r.sizeZ.natAbs : Int) else litMaxZ r - litMinZ r + 1)
        "litematica_v6").SetDataVersion dv |>.SetOffset
      (getOrigin r.posX r.sizeX + (if (litCells r).isEmpty then 0 else litMinX r))
      (getOrigin r.posY r.sizeY + (if (litCells r).isEmpty then 0 else litMinY r))
      (getOrigin r.posZ r.sizeZ + (if (litCells r).isEmpty then 0 else litMinZ r)))
  exact ⟨h1, h2, h3, h4, h5, h6⟩

theorem litCells_bounds (r : RegionV6) (c : Nat × Nat × Nat × BlockState)
    (hc : c ∈ litCells r) :
    c.1 < r.sizeX.natAbs ∧ c.2.1 < r.sizeY.natAbs ∧ c.2.2.1 < r.sizeZ.natAbs := by
  rw [litCells] at hc
  simp only [List.mem_flatMap, List.mem_filterMap, List.mem_range] at hc
  obtain ⟨y, hy, z, hz, x, hx, hfx⟩ := hc
  split at hfx
  · exact absurd hfx (by simp)
  · split at hfx
    · exact absurd hfx (by simp)
    · split at hfx
      · exact absurd hfx (by simp)
      · rw [Option.some_inj] at hfx
        subst hfx
        exact ⟨hx, hy, hz⟩

/-- C3: after the Litematica v6 read of a region with at least one kept
non-air block, the dimensions are the axis-wise extent of the bounding box
of the non-air positions and the offset is the region origin (`getOrigin`
per axis) plus the box minimum; with no non-air block the dimensions are
`|Size|` per axis and the box minimum used is `(0, 0, 0)`. -/
theorem claim_C3_litematica_crop (r : RegionV6) (dv : Int)
    (hsx : r.sizeX.natAbs ≤ 2 ^ 31) (hsy : r.sizeY.natAbs ≤ 2 ^ 31)
    (hsz : r.sizeZ.natAbs ≤ 2 ^ 31) :
    (∀ mnx mxx mny mxy mnz mxz : Int,
      ((litCells r).map (fun c => (c.1 : Int))).min? = some mnx →
      ((litCells r).map (fun c => (c.1 : Int))).max? = some mxx →
      ((litCells r).map (fun c => (c.2.1 : Int))).min? = some mny →
      ((litCells r).map (fun c => (c.2.1 : Int))).max? = some mxy →
      ((litCells r).map (fun c => (c.2.2.1 : Int))).min? = some mnz →
      ((litCells r).map (fun c => (c.2.2.1 : Int))).max? = some mxz →
      (readV6Region r dv).width = mxx - mnx + 1
      ∧ (readV6Region r dv).height = mxy - mny + 1
      ∧ (readV6Region r dv).length = mxz - mnz + 1
      ∧ (readV6Region r dv).offsetX = getOrigin r.posX r.sizeX + mnx
      ∧ (readV6Region r dv).offsetY = getOrigin r.posY r.sizeY + mny
      ∧ (readV6Region r dv).offsetZ = getOrigin r.posZ r.sizeZ + mnz)
    ∧ (litCells r = [] →
      (readV6Region r dv).width = (r.sizeX.natAbs : Int)
      ∧ (readV6Region r dv).height = (r.sizeY.natAbs : Int)
      ∧ (readV6Region r dv).length = (r.sizeZ.natAbs : Int)
      ∧ (readV6Region r dv).offsetX = getOrigin r.posX r.sizeX
      ∧ (readV6Region r dv).offsetY = getOrigin r.posY r.sizeY
      ∧ (readV6Region r dv).offsetZ = getOrigin r.posZ r.sizeZ) := by
  obtain ⟨w1, w2, w3, w4, w5, w6⟩ := readV6Region_fields r dv
  constructor
  · intro mnx mxx mny mxy mnz mxz h1 h2 h3 h4 h5 h6
    have hne : ¬ (litCells r).isEmpty := by
      intro he
      rw [List.isEmpty_iff] at he
      rw [he] at h1
      simp at h1
    -- each extremum is attained by a kept cell, bounding it by the seeds
    have hminx : litMinX r = mnx := by
      have hx : litMinX r
          = ((litCells r).map (fun c => (c.1 : Int))).foldl min ((2 : Int) ^ 31 - 1) :=
        (List.foldl_map (fun c : Nat × Nat × Nat × BlockState => ((c.1 : Int))) min
          (litCells r) ((2 : Int) ^ 31 - 1)).symm
      rw [hx]
      apply foldl_min_from _ _ _ h1
      have hmem := List.min?_mem (fun a b : Int => min_choice a b) h1
      simp only [List.mem_map] at hmem
      obtain ⟨c, hc, hceq⟩ := hmem
      have hb := (litCells_bounds r c hc).1
      omega
    have hminy : litMinY r = mny := by
      have hx : litMinY r
          = ((litCells r).map (fun c => (c.2.1 : Int))).foldl min ((2 : Int) ^ 31 - 1) :=
        (List.foldl_map (fun c : Nat × Nat × Nat × BlockState => ((c.2.1 : Int))) min
          (litCells r) ((2 : Int) ^ 31 - 1)).symm
      rw [hx]
      apply foldl_min_from _ _ _ h3
      have hmem := List.min?_mem (fun a b : Int => min_choice a b) h3
      simp only [List.mem_map] at hmem
      obtain ⟨c, hc, hceq⟩ := hmem
      have hb := (litCells_bounds r c hc).2.1
      omega
    have hminz : litMinZ r = mnz := by
      have hx : litMinZ r
          = ((litCells r).map (fun c => (c.2.2.1 : Int))).foldl min ((2 : Int) ^ 31 - 1) :=
        (List.foldl_map (fun c : Nat × Nat × Nat × BlockState => ((c.2.2.1 : Int))) min
          (litCells r) ((2 : Int) ^ 31 - 1)).symm
      rw [hx]
      apply foldl_min_from _ _ _ h5
      have hmem := List.min?_mem (fun a b : Int => min_choice a b) h5
      simp only [List.mem_map] at hmem
      obtain ⟨c, hc, hceq⟩ := hmem
      have hb := (litCells_bounds r c hc).2.2
      omega
    have hmaxx : litMaxX r = mxx := by
      have hx : litMaxX r
          = ((litCells r).map (fun c => (c.1 : Int))).foldl max (-((2 : Int) ^ 31)) :=
        (List.foldl_map (fun c : Nat × Nat × Nat × BlockState => ((c.1 : Int))) max
          (litCells r) (-((2 : Int) ^ 31))).symm
      rw [hx]
      apply foldl_max_from _ _ _ h2
      have hmem := List.max?_mem (fun a b : Int => max_choice a b) h2
      simp only [List.mem_map] at hmem
      obtain ⟨c, hc, hceq⟩ := hmem
      omega
    have hmaxy : litMaxY r = mxy := by
      have hx : litMaxY r
          = ((litCells r).map (fun c => (c.2.1 : Int))).foldl max (-((2 : Int) ^ 31)) :=
        (List.foldl_map (fun c : Nat × Nat × Nat × BlockState => ((c.2.1 : Int))) max
          (litCells r) (-((2 : Int) ^ 31))).symm
      rw [hx]
      apply foldl_max_from _ _ _ h4
      have hmem := List.max?_mem (fun a b : Int => max_choice a b) h4
      simp only [List.mem_map] at hmem
      obtain ⟨c, hc, hceq⟩ := hmem
      omega
    have hmaxz : litMaxZ r = mxz := by
      have hx : litMaxZ r
          = ((litCells r).map (fun c => (c.2.2.1 : Int))).foldl max (-((2 : Int) ^ 31)) :=
        (List.foldl_map (fun c : Nat × Nat × Nat × BlockState => ((c.2.2.1 : Int))) max
          (litCells r) (-((2 : Int) ^ 31))).symm
      rw [hx]
      apply foldl_max_from _ _ _ h6
      have hmem := List.max?_mem (fun a b : Int => max_choice a b) h6
      simp only [List.mem_map] at hmem
      obtain ⟨c, hc, hceq⟩ := hmem
      omega
    refine ⟨?_, ?_, ?_, ?_, ?_, ?_⟩
    · rw [w1, if_neg hne, hminx, hmaxx]
    · rw [w2, if_neg hne, hminy, hmaxy]
    · rw [w3, if_neg hne, hminz, hmaxz]
    · rw [w4, if_neg hne, hminx]
    · rw [w5, if_neg hne, hminy]
    · rw [w6, if_neg hne, hminz]
  · intro hempty
    have he : (litCells r).isEmpty = true := by rw [List.isEmpty_iff]; exact hempty
    refine ⟨?_, ?_, ?_, ?_, ?_, ?_⟩
    · rw [w1, if_pos he]
    · rw [w2, if_pos he]
    · rw [w3, if_pos he]
    · rw [w4, if_pos he]; omega
    · rw [w5, if_pos he]; omega
    · rw [w6, if_pos he]; omega

/-- Witness for C3: a 2×1×1 region with a single non-air block at x = 1,
written with `Position = (10, 20, 30)` and a negative `Size.x = -2`
(origin x becomes `10 - 2 + 1 = 9`), crops to 1×1×1 at offset
`(9 + 1, 20, 30)`. -/
theorem claim_C3_litematica_crop_witness :
    (readV6Region
        { posX := 10, posY := 20, posZ := 30, sizeX := -2, sizeY := 1, sizeZ := 1,
          palette := [{ name := "minecraft:air", properties := [] },
                      { name := "minecraft:stone", properties := [] }],
          blockStates := [4] } 100).width = 1
    ∧ (readV6Region
        { posX := 10, posY := 20, posZ := 30, sizeX := -2, sizeY := 1, sizeZ := 1,
          palette := [{ name := "minecraft:air", properties := [] },
                      { name := "minecraft:stone", properties := [] }],
          blockStates := [4] } 100).offsetX = 10 := by
  have h := (claim_C3_litematica_crop
    { posX := 10, posY := 20, posZ := 30, sizeX := -2, sizeY := 1, sizeZ := 1,
      palette := [{ name := "minecraft:air", properties := [] },
                  { name := "minecraft:stone", properties := [] }],
      blockStates := [4] } 100 (by decide) (by decide) (by decide)).1
    1 1 0 0 0 0 (by decide) (by decide) (by decide) (by decide) (by decide) (by decide)
  refine ⟨?_, ?_⟩
  · rw [h.1]
    decide
  · rw [h.2.2.2.1]
    decide

/-- C1 (counter-evidence): the sponge_v1 round-trip never succeeds.
`WriteV1` wraps the v1 struct in a root compound holding the single field
`Schematic`, while `ReadV1` decodes the root compound itself as the v1
struct; every field lookup — in particular `Version` — misses, so
`Version` takes the Go zero value `0` and the `data.Version != 1` check
rejects the read for every schematic, with or without air blocks, entities
or biomes.  Preservation of dimensions, offset, data version or blocks is
therefore unreachable for this codec. -/
theorem claim_C1_sponge_roundtrip_fails (s : SchematicImpl) :
    readV1 (writeV1 s) = Except.error (SpongeErr.wrongVersion 0) := rfl
